import Mathlib

/-!
# Kiiroo event codec (`protocol/kiiroo/types.go`)

A shallow embedding of the event codec of the `kiiroo` package and of the parts of the Go
standard library it calls (`strings`, `strconv`, `fmt`, `time`, `float64` arithmetic),
followed by theorems about the embedded functions.

Conventions of the embedding:

* a Go `string` / `[]byte` is a list of bytes, each byte a natural number (`Text`);
* `int`, `int64` and `time.Duration` are integers, with an explicit wrap to 64 bits where
  the code can overflow;
* a finite `float64` is the integer `k` with value `k / 2^1074` (every finite binary64
  number is such a multiple); the sign of zero is not represented (it is not observable
  through the codec: `int64(-0.0) = 0` and `Duration.Seconds` never yields `-0`);
* a method with a pointer receiver takes the old value of the receiver and returns the new
  one together with the returned error;
* a run-time panic is an explicit outcome.
-/

namespace kiiroo

/-! ## Byte strings -/

/-- A Go string or byte slice: the list of its bytes. -/
abbrev Text := List Nat

/-- The UTF-8 encoding of a code point (`utf8.AppendRune` for a valid rune). -/
def encodeRune (c : Nat) : Text :=
  if c < 0x80 then [c]
  else if c < 0x800 then [0xC0 + c / 64, 0x80 + c % 64]
  else if c < 0x10000 then [0xE0 + c / 4096, 0x80 + c / 64 % 64, 0x80 + c % 64]
  else [0xF0 + c / 262144, 0x80 + c / 4096 % 64, 0x80 + c / 64 % 64, 0x80 + c % 64]

/-- The bytes of a string literal. -/
def bytes (s : String) : Text :=
  s.data.flatMap (fun c => encodeRune c.toNat)

/-! ## Package `strings` (separators are the single bytes the codec uses) -/

/-- `strings.Split(s, sep)` for a one-byte separator: always at least one piece. -/
def Split : Text → Nat → List Text
  | [], _ => [[]]
  | c :: cs, sep =>
    if c = sep then [] :: Split cs sep
    else
      match Split cs sep with
      | [] => [[c]]
      | t :: ts => (c :: t) :: ts

/-- `strings.Count(s, sep)` for a one-byte separator. -/
def Count : Text → Nat → Nat
  | [], _ => 0
  | c :: cs, sep => if c = sep then Count cs sep + 1 else Count cs sep

/-- `strings.Join(elems, sep)`. -/
def Join : List Text → Text → Text
  | [], _ => []
  | [x], _ => x
  | x :: y :: rest, sep => x ++ sep ++ Join (y :: rest) sep

/-- Number of bytes of the white-space rune (`unicode.IsSpace`) encoded at the head of the
text, `0` when the text does not start with one. -/
def spaceLen : Text → Nat
  | [] => 0
  | c :: r =>
    if c = 9 ∨ c = 10 ∨ c = 11 ∨ c = 12 ∨ c = 13 ∨ c = 32 then 1
    else if c = 0xC2 then
      match r with
      | d :: _ => if d = 0x85 ∨ d = 0xA0 then 2 else 0
      | [] => 0
    else if c = 0xE1 then
      match r with
      | d1 :: d2 :: _ => if d1 = 0x9A ∧ d2 = 0x80 then 3 else 0
      | _ => 0
    else if c = 0xE2 then
      match r with
      | d1 :: d2 :: _ =>
        if d1 = 0x80 ∧ ((0x80 ≤ d2 ∧ d2 ≤ 0x8A) ∨ d2 = 0xA8 ∨ d2 = 0xA9 ∨ d2 = 0xAF) then 3
        else if d1 = 0x81 ∧ d2 = 0x9F then 3
        else 0
      | _ => 0
    else if c = 0xE3 then
      match r with
      | d1 :: d2 :: _ => if d1 = 0x80 ∧ d2 = 0x80 then 3 else 0
      | _ => 0
    else 0

/-- Number of bytes of the white-space rune encoded at the end of a text, given the text
reversed (`utf8.DecodeLastRuneInString` followed by `unicode.IsSpace`). -/
def spaceLenRev : Text → Nat
  | [] => 0
  | c :: r =>
    if c = 9 ∨ c = 10 ∨ c = 11 ∨ c = 12 ∨ c = 13 ∨ c = 32 then 1
    else
      match r with
      | d :: r2 =>
        if d = 0xC2 ∧ (c = 0x85 ∨ c = 0xA0) then 2
        else
          match r2 with
          | b :: _ =>
            if b = 0xE1 ∧ d = 0x9A ∧ c = 0x80 then 3
            else if b = 0xE2 ∧ d = 0x80 ∧
                ((0x80 ≤ c ∧ c ≤ 0x8A) ∨ c = 0xA8 ∨ c = 0xA9 ∨ c = 0xAF) then 3
            else if b = 0xE2 ∧ d = 0x81 ∧ c = 0x9F then 3
            else if b = 0xE3 ∧ d = 0x80 ∧ c = 0x80 then 3
            else 0
          | [] => 0
      | [] => 0

/-- Repeatedly remove the rune measured by `len` from the head, at most `fuel` times. -/
def trimWith (len : Text → Nat) : Nat → Text → Text
  | 0, s => s
  | fuel + 1, s => if len s = 0 then s else trimWith len fuel (s.drop (len s))

/-- `strings.TrimLeftFunc(s, unicode.IsSpace)`. -/
def TrimLeft (s : Text) : Text := trimWith spaceLen s.length s

/-- `strings.TrimRightFunc(s, unicode.IsSpace)`. -/
def TrimRight (s : Text) : Text := (trimWith spaceLenRev s.length s.reverse).reverse

/-- `strings.TrimSpace(s)`: leading and trailing white space removed. -/
def TrimSpace (s : Text) : Text := TrimRight (TrimLeft s)

/-! ## `float64` -/

/-- A `float64` value; `fin k` is the finite number `k / 2^1074`, a multiple of the
smallest positive `float64`. -/
inductive F64 where
  | fin (k : Int)
  | inf (neg : Bool)
  | nan
  deriving DecidableEq, Repr

/-- The number of units `2^-1074` in one: `fin k` has the value `k / F64.unit`. -/
def F64.unit : Nat := 2 ^ 1074

/-- The largest finite `float64`, `(2^53 - 1) * 2^971`, in units of `2^-1074`. -/
def F64.maxMag : Nat := (2 ^ 53 - 1) * 2 ^ 971 * F64.unit

/-- A block of 2048 bits. -/
def block : Nat := 2 ^ 2048

/-- Floor of the binary logarithm of `n` (`0` for `n < 2`): blocks of 2048 bits are
split off while there are any (`fuel` bounds their number and `n` itself is always
enough), then the exponent is found bit by bit, from `2^1024` down. -/
def ilog2 : Nat → Nat → Nat
  | 0, _ => 0
  | fuel + 1, n =>
    if block ≤ n then ilog2 fuel (n / block) + 2048
    else
      [1024, 512, 256, 128, 64, 32, 16, 8, 4, 2, 1].foldl
        (fun acc k => if 2 ^ (acc + k) ≤ n then acc + k else acc) 0

/-- Round the non-negative rational `num / den` to the nearest number with a 53-bit
significand and exponent at least `-1074`, ties to even; the result in units of `2^-1074`
(IEEE 754 round-to-nearest-even before the overflow check). -/
def F64.roundMag (num den : Nat) : Nat :=
  let x := num * F64.unit / den
  let s := (ilog2 x x + 1) - 53
  let d := den * 2 ^ s
  let q := num * F64.unit / d
  let r := num * F64.unit % d
  let q1 := if d < 2 * r ∨ (2 * r = d ∧ q % 2 = 1) then q + 1 else q
  q1 * 2 ^ s

/-- The `float64` nearest to `± num / den`; overflow gives an infinity. -/
def F64.round (neg : Bool) (num den : Nat) : F64 :=
  let k := F64.roundMag num den
  if F64.maxMag < k then F64.inf neg
  else F64.fin (if neg then -(k : Int) else (k : Int))

/-- Conversion `float64(n)` of an integer. -/
def F64.ofInt (n : Int) : F64 := F64.round (decide (n < 0)) n.natAbs 1

/-- The `float64` product `x * y`. -/
def F64.mul : F64 → F64 → F64
  | .fin a, .fin b =>
    F64.round (decide (a < 0) != decide (b < 0)) (a.natAbs * b.natAbs) (F64.unit * F64.unit)
  | .fin a, .inf n => if a = 0 then .nan else .inf (decide (a < 0) != n)
  | .inf n, .fin b => if b = 0 then .nan else .inf (n != decide (b < 0))
  | .inf n, .inf m => .inf (n != m)
  | _, _ => .nan

/-- The `float64` quotient `x / y`. -/
def F64.div : F64 → F64 → F64
  | .fin a, .fin b =>
    if b = 0 then (if a = 0 then .nan else .inf (decide (a < 0)))
    else F64.round (decide (a < 0) != decide (b < 0)) a.natAbs b.natAbs
  | .fin _, .inf _ => .fin 0
  | .inf n, .fin b => .inf (n != decide (b < 0))
  | _, _ => .nan

/-- The `float64` sum `x + y`. -/
def F64.add : F64 → F64 → F64
  | .fin a, .fin b => F64.round (decide (a + b < 0)) (a + b).natAbs F64.unit
  | .fin _, .inf n => .inf n
  | .inf n, .fin _ => .inf n
  | .inf n, .inf m => if n = m then .inf n else .nan
  | _, _ => .nan

/-- Wrap an integer to the range of `int64` (two's complement). -/
def wrap64 (x : Int) : Int := (x + 2 ^ 63) % 2 ^ 64 - 2 ^ 63

/-- Conversion `int64(x)` of a `float64`: the fraction is discarded (truncation toward
zero). For a value outside the range of `int64`, an infinity or a NaN the Go specification
leaves the result to the implementation; the model returns the amd64 result, `-2^63`. -/
def F64.toInt64 : F64 → Int
  | .fin k =>
    let t := Int.tdiv k (F64.unit : Int)
    if -(2 ^ 63) ≤ t ∧ t < 2 ^ 63 then t else -(2 ^ 63)
  | _ => -(2 ^ 63)

/-- The integer part of a finite `float64` (the fraction discarded, toward zero), as an
unbounded integer; `none` for an infinity or a NaN. -/
def F64.trunc : F64 → Option Int
  | .fin k => some (Int.tdiv k (F64.unit : Int))
  | _ => none

/-! ## Package `strconv` -/

/-- Go's `lower(c)`, that is `c | 0x20`. -/
def lower (c : Nat) : Nat := if c / 32 % 2 = 0 then c + 32 else c

/-- ASCII lower-casing of a letter, as in `commonPrefixLenIgnoreCase`. -/
def foldCase (c : Nat) : Nat := if 65 ≤ c ∧ c ≤ 90 then c + 32 else c

/-- Length of the longest common part at the head of `s` and `pat`, ignoring ASCII case in
`s` (`commonPrefixLenIgnoreCase`). -/
def commonLen : Text → Text → Nat
  | c :: s, p :: pat => if foldCase c = p then commonLen s pat + 1 else 0
  | _, _ => 0

/-- The function `special` of `strconv`: an infinity or a NaN at the head of the text,
with the number of bytes read. -/
def special (s : Text) : Option (F64 × Nat) :=
  let infAt (neg : Bool) (nsign : Nat) (t : Text) : Option (F64 × Nat) :=
    let n := commonLen t (bytes "infinity")
    let n := if 3 < n ∧ n < 8 then 3 else n
    if n = 3 ∨ n = 8 then some (F64.inf neg, nsign + n) else none
  match s with
  | [] => none
  | c :: r =>
    if c = 43 then infAt false 1 r
    else if c = 45 then infAt true 1 r
    else if c = 105 ∨ c = 73 then infAt false 0 s
    else if c = 110 ∨ c = 78 then
      if commonLen s (bytes "nan") = 3 then some (F64.nan, 3) else none
    else none

/-- State of the mantissa scan of `readFloat`. -/
structure Mant where
  /-- the integer written by all mantissa digits -/
  mant : Nat
  /-- number of digits after the point -/
  frac : Nat
  sawdot : Bool
  sawdigits : Bool
  underscores : Bool
  /-- the unread text -/
  rest : Text
  deriving DecidableEq, Repr

/-- The mantissa loop of `readFloat` in the given base (10 or 16). -/
def scanMant (base : Nat) : Text → Mant → Mant
  | [], st => { st with rest := [] }
  | c :: cs, st =>
    if c = 95 then scanMant base cs { st with underscores := true }
    else if c = 46 then
      if st.sawdot then { st with rest := c :: cs }
      else scanMant base cs { st with sawdot := true }
    else if 48 ≤ c ∧ c ≤ 57 then
      scanMant base cs { st with
        sawdigits := true
        mant := st.mant * base + (c - 48)
        frac := if st.sawdot then st.frac + 1 else st.frac }
    else if base = 16 ∧ 97 ≤ lower c ∧ lower c ≤ 102 then
      scanMant base cs { st with
        sawdigits := true
        mant := st.mant * 16 + (lower c - 97 + 10)
        frac := if st.sawdot then st.frac + 1 else st.frac }
    else { st with rest := c :: cs }

/-- The exponent digit loop of `readFloat`: the exponent read so far (no longer extended
once it has reached 10000), whether an underscore was seen, and the unread text. -/
def scanExp : Text → Nat → Bool → Nat × Bool × Text
  | [], e, u => (e, u, [])
  | c :: cs, e, u =>
    if c = 95 then scanExp cs e true
    else if 48 ≤ c ∧ c ≤ 57 then scanExp cs (if e < 10000 then e * 10 + (c - 48) else e) u
    else (e, u, c :: cs)

/-- The loop of `underscoreOK` over the number proper; `saw` is 0 at the beginning,
1 after a digit, 2 after an underscore and 3 after anything else. -/
def underscoreLoop (hex : Bool) : Text → Nat → Bool
  | [], saw => saw != 2
  | c :: cs, saw =>
    if (48 ≤ c ∧ c ≤ 57) ∨ (hex = true ∧ 97 ≤ lower c ∧ lower c ≤ 102) then
      underscoreLoop hex cs 1
    else if c = 95 then
      if saw != 1 then false else underscoreLoop hex cs 2
    else if saw = 2 then false
    else underscoreLoop hex cs 3

/-- The function `underscoreOK` of `strconv`: underscores only between digits or between
a base prefix and a digit. -/
def underscoreOK (s : Text) : Bool :=
  let s := match s with
    | c :: r => if c = 45 ∨ c = 43 then r else s
    | [] => s
  match s with
  | c0 :: c1 :: r =>
    if c0 = 48 ∧ (lower c1 = 98 ∨ lower c1 = 111 ∨ lower c1 = 120) then
      underscoreLoop (lower c1 = 120) r 1
    else underscoreLoop false s 0
  | _ => underscoreLoop false s 0

/-- What `readFloat` extracts from a well-formed number: the value is
`± mant * base ^ exp` with `base` ten, or two for a hexadecimal number. -/
structure Number where
  neg : Bool
  hex : Bool
  mant : Nat
  exp : Int
  deriving DecidableEq, Repr

/-- Whether the number proper starts with the base prefix `0x` and at least one more
byte. -/
def hexPrefix : Text → Bool
  | c0 :: c1 :: _ :: _ => c0 = 48 ∧ lower c1 = 120
  | _ => false

/-- The function `readFloat` of `strconv` after the optional sign: `s` is the whole text,
`body` the text after the sign and `hex` tells whether it starts with the base prefix. -/
def readNumber (s : Text) (neg hex : Bool) (body : Text) : Option Number :=
  let m := scanMant (if hex then 16 else 10) (if hex then body.drop 2 else body)
    { mant := 0, frac := 0, sawdot := false, sawdigits := false, underscores := false,
      rest := [] }
  let unit : Int := if hex then 4 else 1
  if m.sawdigits = false then none
  else
    let finish (us : Bool) (rest : Text) (e : Int) : Option Number :=
      if rest ≠ [] then none
      else if us = true ∧ underscoreOK s = false then none
      else some { neg := neg, hex := hex, mant := m.mant, exp := e - unit * m.frac }
    match m.rest with
    | [] => if hex then none else finish m.underscores [] 0
    | x :: xs =>
      if lower x = (if hex then 112 else 101) then
        match xs with
        | [] => none
        | y :: ys =>
          let esign : Int := if y = 45 then -1 else 1
          let digits : Text := if y = 43 ∨ y = 45 then ys else xs
          match digits with
          | [] => none
          | z :: _ =>
            if z < 48 ∨ 57 < z then none
            else
              let (e, us, rest) := scanExp digits 0 m.underscores
              finish us rest (esign * e)
      else if hex then none
      else finish m.underscores m.rest 0

/-- The function `readFloat` of `strconv`, on a text that has to be read to its end (as
`ParseFloat` requires); `none` is a syntax error. -/
def readFloat (s : Text) : Option Number :=
  match s with
  | [] => none
  | c :: r =>
    let body : Text := if c = 43 ∨ c = 45 then r else s
    readNumber s (c = 45) (hexPrefix body) body

/-- `strconv.ParseFloat(s, 64)`: the nearest `float64` to the number written in `s`
(decimal or hexadecimal, or an infinity or NaN); `none` stands for a non-nil error
(syntax error, or a value out of range). -/
def ParseFloat (s : Text) : Option F64 :=
  match special s with
  | some (v, n) => if n = s.length then some v else none
  | none =>
    match readFloat s with
    | none => none
    | some x =>
      let base : Nat := if x.hex then 2 else 10
      let v :=
        if 0 ≤ x.exp then F64.round x.neg (x.mant * base ^ x.exp.toNat) 1
        else F64.round x.neg x.mant (base ^ (-x.exp).toNat)
      match v with
      | .fin k => some (.fin k)
      | _ => none

/-- The value of a text of decimal digits, `none` if a byte is not a digit. -/
def digitsVal : Text → Nat → Option Nat
  | [], acc => some acc
  | c :: cs, acc => if 48 ≤ c ∧ c ≤ 57 then digitsVal cs (acc * 10 + (c - 48)) else none

/-- `strconv.ParseInt(s, 10, 16)`: an optional sign and decimal digits, the value within
the range of `int16`; `none` stands for a non-nil error. -/
def ParseInt (s : Text) : Option Int :=
  match s with
  | [] => none
  | c :: r =>
    let neg : Bool := c = 45
    let body : Text := if c = 43 ∨ c = 45 then r else s
    if body = [] then none
    else
      match digitsVal body 0 with
      | none => none
      | some un =>
        if neg = false ∧ 32768 ≤ un then none
        else if neg = true ∧ 32768 < un then none
        else some (if neg then -(un : Int) else (un : Int))

/-! ## Package `fmt` -/

/-- The decimal digits of a natural number, most significant first; `fuel` bounds the
number of digits and `n + 1` is always enough. -/
def digitsAux : Nat → Nat → Text
  | 0, _ => []
  | fuel + 1, n => if n < 10 then [48 + n] else digitsAux fuel (n / 10) ++ [48 + n % 10]

/-- The decimal text of a natural number. -/
def fmtNat (n : Nat) : Text := digitsAux (n + 1) n

/-- The verb `%d` applied to an integer. -/
def fmtInt (i : Int) : Text :=
  if i < 0 then 45 :: fmtNat i.natAbs else fmtNat i.natAbs

/-- The verb `%.2f` applied to a `float64`: the exact value rounded to two decimals, ties
to even, with the sign of the value. -/
def fmtFixed2 : F64 → Text
  | .fin k =>
    let num := k.natAbs * 100
    let den := F64.unit
    let q := num / den
    let r := num % den
    let h := if den < 2 * r ∨ (2 * r = den ∧ q % 2 = 1) then q + 1 else q
    (if k < 0 then [45] else []) ++ fmtNat (h / 100) ++ [46, 48 + h % 100 / 10, 48 + h % 10]
  | .inf neg => if neg then bytes "-Inf" else bytes "+Inf"
  | .nan => bytes "NaN"

/-! ## Package `time` -/

/-- `Duration.Seconds`: the duration (in nanoseconds) as a floating-point number of
seconds, `float64(d / Second) + float64(d % Second) / 1e9`. -/
def Seconds (d : Int) : F64 :=
  F64.add (F64.ofInt (Int.tdiv d 1000000000))
    (F64.div (F64.ofInt (Int.tmod d 1000000000)) (F64.ofInt 1000000000))

/-- `time.Millisecond`, in nanoseconds. -/
def Millisecond : Int := 1000000

/-! ## Package `kiiroo`: `types.go` -/

/-- The sentinel errors of the package: `ErrEventFormat` (the event could not be parsed)
and `ErrNoEvents` (no events could be detected). -/
inductive Error where
  | ErrEventFormat
  | ErrNoEvents
  deriving DecidableEq, Repr

export Error (ErrEventFormat ErrNoEvents)

/-- Event contains the values of a single Kiiroo event: `Time` is a `time.Duration`
(nanoseconds, `int64`) and `Value` an `int`. -/
structure Event where
  Time : Int
  Value : Int
  deriving DecidableEq, Repr

/-- Events is an ordered series of Event objects. -/
abbrev Events := List Event

/-- The zero value of `Event`, as allocated by `new(Event)` and `make([]Event, n)`. -/
def Event.zero : Event := { Time := 0, Value := 0 }

/-- `fmt.Sprintf("%.2f:%d", x, v)`. -/
def Sprintf (x : F64) (v : Int) : Text := fmtFixed2 x ++ [58] ++ fmtInt v

/-- `Event.MarshalText`: the text and the returned error (always nil). -/
def Event.MarshalText (e : Event) : Text × Option Error :=
  (Sprintf (Seconds e.Time) e.Value, none)

/-- `Event.UnmarshalText`: given the receiver and the text, the receiver after the call
and the returned error. -/
def Event.UnmarshalText (e : Event) (text : Text) : Event × Option Error :=
  match Split text 58 with
  | [s0, s1] =>
    match ParseFloat s0 with
    | none => (e, some ErrEventFormat)
    | some t =>
      let timestamp := wrap64 ((F64.mul t (F64.ofInt 1000)).toInt64 * Millisecond)
      match ParseInt s1 with
      | none => (e, some ErrEventFormat)
      | some value =>
        if value < 0 ∨ value > 4 then (e, some ErrEventFormat)
        else ({ Time := timestamp, Value := value }, none)
  | _ => (e, some ErrEventFormat)

/-- The loop of `Events.MarshalText`: the texts of the events, or the first error. -/
def marshalLoop : List Event → Except Error (List Text)
  | [] => .ok []
  | e :: rest =>
    match e.MarshalText with
    | (_, some err) => .error err
    | (v, none) =>
      match marshalLoop rest with
      | .error err => .error err
      | .ok values => .ok (v :: values)

/-- `Events.MarshalText`: the text and the returned error. -/
def Events.MarshalText (es : Events) : Text × Option Error :=
  match marshalLoop es with
  | .error err => ([], some err)
  | .ok values => ([123] ++ Join values [44] ++ [125], none)

/-- How a call of `Events.UnmarshalText` ends: it returns, with the receiver after the
call and the returned error, or it panics (the receiver is as it was at the panic). -/
inductive Outcome where
  | returned (recv : Events) (err : Option Error)
  | panicked (recv : Events)
  deriving DecidableEq, Repr

/-- How the loop of `Events.UnmarshalText` ends. -/
inductive Loop where
  | done (events : List Event)
  | failed (err : Error)
  | indexPanic
  deriving DecidableEq, Repr

/-- The loop of `Events.UnmarshalText` over the tokens from index `i` on: each token is
decoded into a fresh `Event` and stored at its index in `events`; the first error ends
the loop, and so does a store outside `events`. -/
def unmarshalLoop : List Text → Nat → List Event → Loop
  | [], _, events => .done events
  | s :: rest, i, events =>
    match Event.UnmarshalText Event.zero s with
    | (_, some err) => .failed err
    | (e, none) =>
      if i < events.length then unmarshalLoop rest (i + 1) (events.set i e)
      else .indexPanic

/-- `Events.UnmarshalText`: given the receiver and the text, how the call ends. The slice
expression `t[1:len(t)-1]` panics when the trimmed text has fewer than two bytes. -/
def Events.UnmarshalText (es : Events) (text : Text) : Outcome :=
  let t := TrimSpace text
  let size := Count t 44
  let events := List.replicate (size + 1) Event.zero
  if t.length < 2 then .panicked es
  else
    match unmarshalLoop (Split ((t.drop 1).take (t.length - 2)) 44) 0 events with
    | .done events => .returned events none
    | .failed err => .returned es (some err)
    | .indexPanic => .panicked es

/-- The event a token decodes to (meaningful when the token decodes without error). -/
def decoded (tok : Text) : Event := (Event.UnmarshalText Event.zero tok).1

/-- Whether a `Time` survives `Event.MarshalText` followed by `Event.UnmarshalText`: its
`%.2f` text is parsed and converted back to the same `Duration`. -/
def timeRoundTrips (t : Int) : Bool :=
  match ParseFloat (fmtFixed2 (Seconds t)) with
  | some x => decide (wrap64 ((F64.mul x (F64.ofInt 1000)).toInt64 * Millisecond) = t)
  | none => false


/-! ## Package `kiiroo`: the `sort.Interface` methods of `Events` -/

/-- `Events.Len`: the number of elements in the collection. -/
def Events.Len (es : Events) : Int := (es.length : Int)

/-- `Events.Less`: whether the element with index `i` should sort before the element with
index `j`; `none` is the panic of an index out of range (an index is a natural number, so
a negative one is not represented). -/
def Events.Less (es : Events) (i j : Nat) : Option Bool :=
  match es[i]?, es[j]? with
  | some a, some b => some (decide (a.Time < b.Time))
  | _, _ => none

/-- `Events.Swap`: the collection after the elements with indexes `i` and `j` have been
swapped; `none` is the panic of an index out of range. -/
def Events.Swap (es : Events) (i j : Nat) : Option Events :=
  match es[i]?, es[j]? with
  | some a, some b => some ((es.set i b).set j a)
  | _, _ => none

/-! ## Package `sort`: the insertion sort of `sort.Stable` -/

/-- The inner loop of `insertionSort(data, 0, n)`,
`for j := i; j > 0 && data.Less(j, j-1); j-- { data.Swap(j, j-1) }`, entered at `j`. -/
def insertLoop : Nat → Events → Option Events
  | 0, es => some es
  | j + 1, es =>
    match Events.Less es (j + 1) j with
    | none => none
    | some false => some es
    | some true =>
      match Events.Swap es (j + 1) j with
      | none => none
      | some es1 => insertLoop j es1

/-- The outer loop of `insertionSort(data, 0, n)`, `for i := 1; i < n; i++`, with `k`
iterations left at index `i`. -/
def insertionLoop : Nat → Nat → Events → Option Events
  | 0, _, es => some es
  | k + 1, i, es =>
    match insertLoop i es with
    | none => none
    | some es1 => insertionLoop k (i + 1) es1

/-- The function `insertionSort(data, 0, n)` of package `sort` on an `Events`, driven by
`Less` and `Swap` only; `none` is a panic. -/
def insertionSort (es : Events) (n : Nat) : Option Events := insertionLoop (n - 1) 1 es

/-- A stable sort of an `Events` driven by its `Len`, `Less` and `Swap`: `sort.Stable`
sorts blocks of 20 elements with `insertionSort` and merges them, so on a collection of at
most 20 events it is this call; on a longer one the merge gives the same collection, since
the sorted and stable arrangement of a collection is unique. -/
def Stable (es : Events) : Option Events := insertionSort es (Events.Len es).toNat

/-- Ascending order of `Time`. -/
def ascending (es : Events) : Prop := es.Pairwise fun a b => a.Time ≤ b.Time

/-- The events of a collection that have the given `Time`, in their order. -/
def atTime (t : Int) (es : Events) : Events := es.filter fun e => decide (e.Time = t)

/-- Insertion of an event into a collection kept in reverse (latest event first): the
event passes the elements that are strictly later than it. -/
def insertRev (x : Event) : List Event → List Event
  | [] => [x]
  | y :: rp => if x.Time < y.Time then y :: insertRev x rp else x :: y :: rp

/-- The collection with its events inserted one after the other, from the first to the
last, each behind the events that are not later than it. -/
def sortedOf (es : Events) : Events := (es.foldl (fun rp x => insertRev x rp) []).reverse

/-- A text that is the encoding of exactly one white-space rune. -/
def isSpaceRune (r : Text) : Prop := r ≠ [] ∧ spaceLen r = r.length

/-- A text that consists only of white space: the encodings of white-space runes, one
after the other. -/
def WhiteSpace (w : Text) : Prop :=
  ∃ rs : List Text, (∀ r ∈ rs, isSpaceRune r) ∧ w = rs.flatten

/-- The number of hundredths that the verb `%.2f` prints for the non-negative finite
`float64` of `k` units: `k * 100 / unit` rounded to the nearest integer, ties to even. -/
def hundredths (k : Nat) : Nat :=
  if F64.unit < 2 * (k * 100 % F64.unit) ∨
      (2 * (k * 100 % F64.unit) = F64.unit ∧ k * 100 / F64.unit % 2 = 1)
  then k * 100 / F64.unit + 1 else k * 100 / F64.unit

/-- The decimal text of `h` hundredths: the whole part, a point and exactly two digits. -/
def centsText (h : Nat) : Text := fmtNat (h / 100) ++ [46, 48 + h % 100 / 10, 48 + h % 10]

/-! ## Lemmas: package `strings` -/

theorem Split_ne_nil (s : Text) (sep : Nat) : Split s sep ≠ [] := by
  induction s with
  | nil => simp [Split]
  | cons c cs ih =>
    unfold Split
    split
    · simp
    · split <;> simp

theorem Split_cons_sep (cs : Text) (sep : Nat) : Split (sep :: cs) sep = [] :: Split cs sep := by
  simp [Split]

theorem Split_cons_ne (c : Nat) (cs : Text) (sep : Nat) (h : c ≠ sep) :
    ∃ t ts, Split cs sep = t :: ts ∧ Split (c :: cs) sep = (c :: t) :: ts := by
  cases hs : Split cs sep with
  | nil => exact absurd hs (Split_ne_nil cs sep)
  | cons t ts => exact ⟨t, ts, rfl, by simp [Split, h, hs]⟩

theorem Split_length (s : Text) (sep : Nat) : (Split s sep).length = Count s sep + 1 := by
  induction s with
  | nil => simp [Split, Count]
  | cons c cs ih =>
    by_cases h : c = sep
    · subst h
      simp [Split_cons_sep, Count, ih]
    · obtain ⟨t, ts, h1, h2⟩ := Split_cons_ne c cs sep h
      rw [h2]
      rw [h1] at ih
      simpa [Count, h] using ih

theorem Split_append (s v : Text) (sep : Nat) :
    Split (s ++ sep :: v) sep = Split s sep ++ Split v sep := by
  induction s with
  | nil => simp [Split]
  | cons c cs ih =>
    by_cases h : c = sep
    · subst h
      simp [Split_cons_sep, ih]
    · obtain ⟨t, ts, h1, h2⟩ := Split_cons_ne c cs sep h
      obtain ⟨t', ts', h1', h2'⟩ := Split_cons_ne c (cs ++ sep :: v) sep h
      rw [List.cons_append, h2', h2]
      rw [ih, h1] at h1'
      simp only [List.cons_append, List.cons.injEq] at h1'
      simp [h1'.1, h1'.2]

theorem Split_of_not_mem (s : Text) (sep : Nat) (h : sep ∉ s) : Split s sep = [s] := by
  induction s with
  | nil => simp [Split]
  | cons c cs ih =>
    have hc : c ≠ sep := fun e => h (by simp [e])
    have hcs : sep ∉ cs := fun e => h (by simp [e])
    simp [Split, hc, ih hcs]

theorem Count_eq_zero (s : Text) (sep : Nat) (h : Count s sep = 0) : sep ∉ s := by
  induction s with
  | nil => simp
  | cons c cs ih =>
    by_cases hc : c = sep
    · simp [Count, hc] at h
    · simp only [Count, hc, if_false] at h
      simp [ih h, Ne.symm hc]

theorem Split_eq_singleton (s x : Text) (sep : Nat) (h : Split s sep = [x]) : x = s := by
  have hl := Split_length s sep
  rw [h] at hl
  have h0 : Count s sep = 0 := by simpa using hl.symm
  have := Split_of_not_mem s sep (Count_eq_zero s sep h0)
  rw [this] at h
  simpa using h.symm

theorem Count_append (s v : Text) (sep : Nat) :
    Count (s ++ v) sep = Count s sep + Count v sep := by
  induction s with
  | nil => simp [Count]
  | cons c cs ih =>
    by_cases hc : c = sep
    · simp [Count, hc, ih]; omega
    · simp [Count, hc, ih]


/-! ## Lemmas: `Event.UnmarshalText` -/

/-- The only way `Event.UnmarshalText` succeeds. -/
theorem Event.UnmarshalText_ok_iff (e e1 : Event) (text : Text) :
    Event.UnmarshalText e text = (e1, none) ↔
      ∃ s0 s1 t value, Split text 58 = [s0, s1] ∧ ParseFloat s0 = some t ∧
        ParseInt s1 = some value ∧ 0 ≤ value ∧ value ≤ 4 ∧
        e1 = { Time := wrap64 ((F64.mul t (F64.ofInt 1000)).toInt64 * Millisecond),
               Value := value } := by
  unfold Event.UnmarshalText
  constructor
  · intro h
    split at h
    · rename_i s0 s1 hs
      split at h
      · simp at h
      · rename_i t ht
        simp only at h
        split at h
        · simp at h
        · rename_i value hv
          split at h
          · simp at h
          · rename_i hr
            refine ⟨s0, s1, t, value, hs, ht, hv, by omega, by omega, ?_⟩
            simp only [Prod.mk.injEq, and_true] at h
            exact h.symm
    · simp at h
  · rintro ⟨s0, s1, t, value, hs, ht, hv, h0, h4, rfl⟩
    have hr : ¬ (value < 0 ∨ value > 4) := by omega
    simp [hs, ht, hv, hr]

/-- A failing `Event.UnmarshalText` returns `ErrEventFormat` and leaves the receiver. -/
theorem Event.UnmarshalText_cases (e : Event) (text : Text) :
    Event.UnmarshalText e text = (e, some ErrEventFormat) ∨
      ∃ e1, Event.UnmarshalText e text = (e1, none) := by
  unfold Event.UnmarshalText
  split
  · split
    · exact Or.inl rfl
    · simp only
      split
      · exact Or.inl rfl
      · split
        · exact Or.inl rfl
        · exact Or.inr ⟨_, rfl⟩
  · exact Or.inl rfl

/-- The result of a successful decode does not depend on the receiver. -/
theorem Event.UnmarshalText_recv (e e0 e1 : Event) (text : Text)
    (h : Event.UnmarshalText e text = (e1, none)) :
    Event.UnmarshalText e0 text = (e1, none) := by
  rw [Event.UnmarshalText_ok_iff] at h ⊢
  exact h

theorem Event.UnmarshalText_err (e : Event) (text : Text)
    (h : (Event.UnmarshalText e text).2 ≠ none) :
    Event.UnmarshalText e text = (e, some ErrEventFormat) := by
  rcases Event.UnmarshalText_cases e text with h1 | ⟨e1, h1⟩
  · exact h1
  · rw [h1] at h
    exact absurd rfl h

/-- Whether a token fails does not depend on the receiver. -/
theorem Event.UnmarshalText_err_recv (e e0 : Event) (text : Text)
    (h : (Event.UnmarshalText e text).2 ≠ none) :
    (Event.UnmarshalText e0 text).2 ≠ none := by
  intro h0
  rcases Event.UnmarshalText_cases e0 text with h1 | ⟨e1, h1⟩
  · rw [h1] at h0
    simp at h0
  · rw [Event.UnmarshalText_recv e0 e e1 text h1] at h
    exact h rfl


/-! ## Lemmas: the loop of `Events.UnmarshalText` -/

theorem unmarshalLoop_ok (toks : List Text) : ∀ (i : Nat) (events : List Event),
    i + toks.length ≤ events.length →
    (∀ tok ∈ toks, (Event.UnmarshalText Event.zero tok).2 = none) →
    unmarshalLoop toks i events =
      .done (events.take i ++ toks.map decoded ++ events.drop (i + toks.length)) := by
  induction toks with
  | nil => intro i events _ _; simp [unmarshalLoop]
  | cons tok rest ih =>
    intro i events hlen hall
    have htok : Event.UnmarshalText Event.zero tok = (decoded tok, none) := by
      have := hall tok (by simp)
      rw [← this]
      rfl
    have hi : i < events.length := by simp at hlen; omega
    have hrest : ∀ t ∈ rest, (Event.UnmarshalText Event.zero t).2 = none :=
      fun t ht => hall t (by simp [ht])
    have hlen2 : i + 1 + rest.length ≤ (events.set i (decoded tok)).length := by
      simp at hlen ⊢; omega
    unfold unmarshalLoop
    rw [htok]
    simp only [hi, if_true]
    rw [ih (i + 1) _ hlen2 hrest]
    congr 1
    rw [List.set_eq_take_append_cons_drop, if_pos hi]
    have h1 : (List.take i events ++ decoded tok :: List.drop (i + 1) events).take (i + 1)
        = List.take i events ++ [decoded tok] := by
      rw [List.take_append_eq_append_take]
      simp [List.length_take, Nat.min_eq_left (Nat.le_of_lt hi)]
    have h2 : (List.take i events ++ decoded tok :: List.drop (i + 1) events).drop
        (i + 1 + rest.length) = List.drop (i + (tok :: rest).length) events := by
      rw [List.drop_append_eq_append_drop]
      simp [List.length_take, Nat.min_eq_left (Nat.le_of_lt hi)]
      have : i + 1 + rest.length - i = rest.length + 1 := by omega
      rw [this, List.drop_succ_cons, List.drop_drop]
      have e1 : List.drop (i + 1 + rest.length) (List.take i events) = [] := by
        apply List.drop_eq_nil_of_le
        simp [List.length_take]; omega
      rw [e1]
      simp
      congr 1
      omega
    rw [h1, h2]
    simp

theorem unmarshalLoop_failed (toks : List Text) : ∀ (i : Nat) (events : List Event),
    i + toks.length ≤ events.length →
    (∃ tok ∈ toks, (Event.UnmarshalText Event.zero tok).2 ≠ none) →
    unmarshalLoop toks i events = .failed ErrEventFormat := by
  induction toks with
  | nil => intro i events _ h; simp at h
  | cons tok rest ih =>
    intro i events hlen hex
    have hi : i < events.length := by simp at hlen; omega
    unfold unmarshalLoop
    rcases Event.UnmarshalText_cases Event.zero tok with h1 | ⟨e1, h1⟩
    · rw [h1]
    · rw [h1]
      simp only [hi, if_true]
      apply ih
      · simp at hlen ⊢; omega
      · obtain ⟨t, ht, hf⟩ := hex
        rcases List.mem_cons.mp ht with rfl | hr
        · rw [h1] at hf
          exact absurd rfl hf
        · exact ⟨t, hr, hf⟩


/-! ## Lemmas: `Events.UnmarshalText` -/

theorem inner_slice (a b : Nat) (inner : Text) :
    ((a :: (inner ++ [b])).drop 1).take ((a :: (inner ++ [b])).length - 2) = inner := by
  simp

theorem Count_wrapped (a b : Nat) (inner : Text) :
    Count (a :: (inner ++ [b])) 44 =
      Count inner 44 + ((if a = 44 then 1 else 0) + (if b = 44 then 1 else 0)) := by
  have h1 : Count (a :: (inner ++ [b])) 44 = Count ([a] ++ (inner ++ [b])) 44 := rfl
  rw [h1, Count_append, Count_append]
  simp only [Count]
  split <;> split <;> omega

/-- The call on a text whose trimmed form has at least two bytes, in terms of the loop
over the tokens of the inner text. -/
theorem Events.UnmarshalText_wrapped (es : Events) (text : Text) (a b : Nat) (inner : Text)
    (ht : TrimSpace text = a :: (inner ++ [b])) :
    Events.UnmarshalText es text =
      match unmarshalLoop (Split inner 44) 0
          (List.replicate (Count (a :: (inner ++ [b])) 44 + 1) Event.zero) with
      | .done events => .returned events none
      | .failed err => .returned es (some err)
      | .indexPanic => .panicked es := by
  unfold Events.UnmarshalText
  simp only [ht]
  rw [inner_slice]
  have : ¬ ((a :: (inner ++ [b])).length < 2) := by simp
  simp only [this, if_false]

/-- One malformed token makes the whole call fail, the receiver untouched. -/
theorem Events.UnmarshalText_failed (es : Events) (text : Text) (a b : Nat) (inner : Text)
    (ht : TrimSpace text = a :: (inner ++ [b]))
    (hex : ∃ tok ∈ Split inner 44, (Event.UnmarshalText Event.zero tok).2 ≠ none) :
    Events.UnmarshalText es text = .returned es (some ErrEventFormat) := by
  rw [Events.UnmarshalText_wrapped es text a b inner ht]
  rw [unmarshalLoop_failed _ 0 _ _ hex]
  simp [Split_length, Count_wrapped]

/-- When every token decodes, the call returns the decoded tokens in order, followed by
one zero event for each of the first and the last byte of the trimmed text that is a
comma. -/
theorem Events.UnmarshalText_done (es : Events) (text : Text) (a b : Nat) (inner : Text)
    (ht : TrimSpace text = a :: (inner ++ [b]))
    (hall : ∀ tok ∈ Split inner 44, (Event.UnmarshalText Event.zero tok).2 = none) :
    Events.UnmarshalText es text =
      .returned ((Split inner 44).map decoded ++
        List.replicate ((if a = 44 then 1 else 0) + (if b = 44 then 1 else 0)) Event.zero)
        none := by
  rw [Events.UnmarshalText_wrapped es text a b inner ht]
  have hlen : 0 + (Split inner 44).length ≤
      (List.replicate (Count (a :: (inner ++ [b])) 44 + 1) Event.zero).length := by
    simp [Split_length, Count_wrapped]
  rw [unmarshalLoop_ok _ 0 _ hlen hall]
  simp only [List.take_zero, List.nil_append, Nat.zero_add, List.drop_replicate,
    Split_length, Count_wrapped]
  congr 3
  omega

/-- The call panics exactly on the texts whose trimmed form is shorter than two bytes. -/
theorem Events.UnmarshalText_panics_iff (es : Events) (text : Text) :
    (∃ recv, Events.UnmarshalText es text = .panicked recv) ↔ (TrimSpace text).length < 2 := by
  constructor
  · rintro ⟨recv, h⟩
    by_contra hlen
    -- the trimmed text has a first and a last byte
    obtain ⟨a, inner, b, ht⟩ : ∃ a inner b, TrimSpace text = a :: (inner ++ [b]) := by
      cases hT : TrimSpace text with
      | nil => simp [hT] at hlen
      | cons a r =>
        rcases List.eq_nil_or_concat r with hr | ⟨inner, b, hr⟩
        · simp [hT, hr] at hlen
        · exact ⟨a, inner, b, by simp [hr]⟩
    by_cases hall : ∀ tok ∈ Split inner 44, (Event.UnmarshalText Event.zero tok).2 = none
    · rw [Events.UnmarshalText_done es text a b inner ht hall] at h
      simp at h
    · have hex : ∃ tok ∈ Split inner 44, (Event.UnmarshalText Event.zero tok).2 ≠ none := by
        push_neg at hall
        exact hall
      rw [Events.UnmarshalText_failed es text a b inner ht hex] at h
      simp at h
  · intro hlen
    exact ⟨es, by simp [Events.UnmarshalText, hlen]⟩


/-! ## Lemmas: decimal digits -/

theorem digitsVal_append (xs : Text) (d acc : Nat) :
    digitsVal (xs ++ [d]) acc =
      match digitsVal xs acc with
      | some a => if 48 ≤ d ∧ d ≤ 57 then some (a * 10 + (d - 48)) else none
      | none => none := by
  induction xs generalizing acc with
  | nil => simp [digitsVal]
  | cons c cs ih =>
    by_cases hc : 48 ≤ c ∧ c ≤ 57
    · simp only [List.cons_append, digitsVal, hc, and_self, if_true]
      exact ih _
    · simp [digitsVal, hc]

theorem digitsVal_digitsAux : ∀ (fuel n : Nat), n < fuel →
    digitsVal (digitsAux fuel n) 0 = some n := by
  intro fuel
  induction fuel with
  | zero => intro n h; omega
  | succ f ih =>
    intro n h
    unfold digitsAux
    by_cases h10 : n < 10
    · simp only [h10, if_true, digitsVal]
      have : 48 ≤ 48 + n ∧ 48 + n ≤ 57 := by omega
      simp only [this, and_self, if_true]
      congr 1
      omega
    · simp only [h10, if_false]
      rw [digitsVal_append, ih (n / 10) (by omega)]
      have : 48 ≤ 48 + n % 10 ∧ 48 + n % 10 ≤ 57 := by omega
      simp only [this, and_self, if_true]
      congr 1
      omega

theorem digitsAux_digit : ∀ (fuel n c : Nat), c ∈ digitsAux fuel n → 48 ≤ c ∧ c ≤ 57 := by
  intro fuel
  induction fuel with
  | zero => intro n c h; simp [digitsAux] at h
  | succ f ih =>
    intro n c h
    unfold digitsAux at h
    by_cases h10 : n < 10
    · simp only [h10, if_true, List.mem_singleton] at h
      omega
    · simp only [h10, if_false, List.mem_append, List.mem_singleton] at h
      rcases h with h | h
      · exact ih _ _ h
      · omega

theorem digitsAux_ne_nil (fuel n : Nat) : digitsAux (fuel + 1) n ≠ [] := by
  unfold digitsAux
  split <;> simp

theorem fmtNat_digit (n c : Nat) (h : c ∈ fmtNat n) : 48 ≤ c ∧ c ≤ 57 :=
  digitsAux_digit _ _ _ h

theorem fmtNat_ne_nil (n : Nat) : fmtNat n ≠ [] := digitsAux_ne_nil n n

theorem digitsVal_fmtNat (n : Nat) : digitsVal (fmtNat n) 0 = some n :=
  digitsVal_digitsAux (n + 1) n (by omega)

theorem ParseInt_minus (body : Text) (un : Nat) (hb : body ≠ [])
    (hv : digitsVal body 0 = some un) :
    ParseInt (45 :: body) = if 32768 < un then none else some (-(un : Int)) := by
  simp [ParseInt, hb, hv]

theorem ParseInt_digits (c : Nat) (r : Text) (un : Nat) (hc : 48 ≤ c ∧ c ≤ 57)
    (hv : digitsVal (c :: r) 0 = some un) :
    ParseInt (c :: r) = if 32768 ≤ un then none else some (un : Int) := by
  have h1 : ¬ (c = 43 ∨ c = 45) := by omega
  have h2 : ¬ (c = 45) := by omega
  have h3 : ¬ (c = 43) := by omega
  simp [ParseInt, h2, h3, hv]

/-- `ParseInt` reads back what `%d` writes, when the value is in the range of `int16`. -/
theorem ParseInt_fmtInt (n m : Int) (h : ParseInt (fmtInt n) = some m) : m = n := by
  unfold fmtInt at h
  by_cases hn : n < 0
  · simp only [hn, if_true] at h
    rw [ParseInt_minus _ _ (fmtNat_ne_nil _) (digitsVal_fmtNat _)] at h
    split at h
    · simp at h
    · simp only [Option.some.injEq] at h
      omega
  · simp only [hn, if_false] at h
    cases hf : fmtNat n.natAbs with
    | nil => exact absurd hf (fmtNat_ne_nil _)
    | cons c r =>
      have hc : 48 ≤ c ∧ c ≤ 57 := fmtNat_digit n.natAbs c (by simp [hf])
      have hv := digitsVal_fmtNat n.natAbs
      rw [hf] at h hv
      rw [ParseInt_digits c r _ hc hv] at h
      split at h
      · simp at h
      · simp only [Option.some.injEq] at h
        omega


/-! ## The claims -/

/-- C3 (what the code does): decoding the text `{}`, also with white space around it,
returns `ErrEventFormat`, the error of decoding the empty token, and not `ErrNoEvents`;
the receiver is left as it was. -/
theorem C3_empty_wrapper_gives_format_error (es : Events) :
    Events.UnmarshalText es (bytes "{}") = .returned es (some ErrEventFormat) ∧
    Events.UnmarshalText es (bytes " {}\n") = .returned es (some ErrEventFormat) ∧
    Events.UnmarshalText es (bytes "{}") ≠ .returned es (some ErrNoEvents) := by
  have h1 : Events.UnmarshalText es (bytes "{}") = .returned es (some ErrEventFormat) :=
    Events.UnmarshalText_failed es _ 123 125 [] (by decide!) ⟨[], by decide!, by decide!⟩
  refine ⟨h1, ?_, ?_⟩
  · exact Events.UnmarshalText_failed es _ 123 125 [] (by decide!) ⟨[], by decide!, by decide!⟩
  · rw [h1]
    simp

/-- C4 counterexample: the texts `x0.00:1y` and `[0.00:1]` have no `{` `}` wrapper, and
decoding them succeeds with the event of the inner token. -/
theorem C4_counterexample :
    (TrimSpace (bytes "x0.00:1y")).head? ≠ some 123 ∧
    (TrimSpace (bytes "x0.00:1y")).getLast? ≠ some 125 ∧
    Events.UnmarshalText [] (bytes "x0.00:1y") = .returned [{ Time := 0, Value := 1 }] none ∧
    Events.UnmarshalText [] (bytes "[0.00:1]") = .returned [{ Time := 0, Value := 1 }] none := by
  decide!

/-- C4 (amended): the wrapper is not validated. When the trimmed text has at least two
bytes, its first byte `a` and last byte `b` are dropped whatever they are; the call fails,
with `ErrEventFormat`, when some comma-separated token of the inner text fails
`Event.UnmarshalText`, and it succeeds when every token decodes. -/
theorem C4_wrapper_not_validated (es : Events) (text : Text) (a b : Nat) (inner : Text)
    (ht : TrimSpace text = a :: (inner ++ [b])) :
    ((∃ tok ∈ Split inner 44, (Event.UnmarshalText Event.zero tok).2 ≠ none) →
      Events.UnmarshalText es text = .returned es (some ErrEventFormat)) ∧
    ((∀ tok ∈ Split inner 44, (Event.UnmarshalText Event.zero tok).2 = none) →
      ∃ events, Events.UnmarshalText es text = .returned events none) :=
  ⟨fun hex => Events.UnmarshalText_failed es text a b inner ht hex,
   fun hall => ⟨_, Events.UnmarshalText_done es text a b inner ht hall⟩⟩

/-- Witness of C4 (amended), at the text `x0.00:1y`. -/
theorem C4_wrapper_not_validated_witness :
    TrimSpace (bytes "x0.00:1y") = 120 :: (bytes "0.00:1" ++ [121]) ∧
    (∀ tok ∈ Split (bytes "0.00:1") 44, (Event.UnmarshalText Event.zero tok).2 = none) ∧
    ∃ events, Events.UnmarshalText [] (bytes "x0.00:1y") = .returned events none :=
  ⟨by decide!, by decide!,
   (C4_wrapper_not_validated [] (bytes "x0.00:1y") 120 121 (bytes "0.00:1") (by decide!)).2
     (by decide!)⟩

/-- C5 (what the code does): on the empty text, on a white-space-only text and on a
one-byte text the slice `t[1:len(t)-1]` is out of bounds and the call panics; in general
the call panics exactly when the trimmed text has fewer than two bytes. -/
theorem C5_short_text_panics :
    (∀ es, Events.UnmarshalText es (bytes "") = .panicked es) ∧
    (∀ es, Events.UnmarshalText es (bytes " \t\n") = .panicked es) ∧
    (∀ es, Events.UnmarshalText es (bytes "x") = .panicked es) ∧
    (∀ es text, (∃ recv, Events.UnmarshalText es text = .panicked recv) ↔
      (TrimSpace text).length < 2) := by
  refine ⟨fun es => ?_, fun es => ?_, fun es => ?_, Events.UnmarshalText_panics_iff⟩
  · have h : (TrimSpace (bytes "")).length < 2 := by decide!
    simp [Events.UnmarshalText, h]
  · have h : (TrimSpace (bytes " \t\n")).length < 2 := by decide!
    simp [Events.UnmarshalText, h]
  · have h : (TrimSpace (bytes "x")).length < 2 := by decide!
    simp [Events.UnmarshalText, h]

/-- C6: `Event.UnmarshalText` either fails with `ErrEventFormat` (the receiver untouched)
or succeeds with a `Value` in `[0,4]`; a text `<seconds>:<v>` whose second field does not
parse to an integer in `[0,4]` fails, in particular when it is the decimal text of an
integer below 0 or above 4, as in `1.0:9` and `1.0:-1`. -/
theorem C6_value_range_and_single_error :
    (∀ (e : Event) (text : Text),
      Event.UnmarshalText e text = (e, some ErrEventFormat) ∨
      ∃ e1, Event.UnmarshalText e text = (e1, none) ∧ 0 ≤ e1.Value ∧ e1.Value ≤ 4) ∧
    (∀ (e : Event) (s v : Text), (∀ n, ParseInt v = some n → n < 0 ∨ 4 < n) →
      Event.UnmarshalText e (s ++ 58 :: v) = (e, some ErrEventFormat)) ∧
    (∀ (e : Event) (s : Text) (n : Int), n < 0 ∨ 4 < n →
      Event.UnmarshalText e (s ++ 58 :: fmtInt n) = (e, some ErrEventFormat)) ∧
    (∀ e : Event, Event.UnmarshalText e (bytes "1.0:9") = (e, some ErrEventFormat)) ∧
    (∀ e : Event, Event.UnmarshalText e (bytes "1.0:-1") = (e, some ErrEventFormat)) := by
  have hA : ∀ (e : Event) (text : Text),
      Event.UnmarshalText e text = (e, some ErrEventFormat) ∨
      ∃ e1, Event.UnmarshalText e text = (e1, none) ∧ 0 ≤ e1.Value ∧ e1.Value ≤ 4 := by
    intro e text
    rcases Event.UnmarshalText_cases e text with h | ⟨e1, h⟩
    · exact Or.inl h
    · refine Or.inr ⟨e1, h, ?_⟩
      obtain ⟨s0, s1, t, value, _, _, _, h0, h4, rfl⟩ := (Event.UnmarshalText_ok_iff e e1 text).mp h
      exact ⟨h0, h4⟩
  have hB : ∀ (e : Event) (s v : Text), (∀ n, ParseInt v = some n → n < 0 ∨ 4 < n) →
      Event.UnmarshalText e (s ++ 58 :: v) = (e, some ErrEventFormat) := by
    intro e s v hv
    rcases Event.UnmarshalText_cases e (s ++ 58 :: v) with h | ⟨e1, h⟩
    · exact h
    · exfalso
      obtain ⟨s0, s1, t, value, hs, _, hp, h0, h4, _⟩ :=
        (Event.UnmarshalText_ok_iff e e1 _).mp h
      rw [Split_append] at hs
      -- both parts of the split are non-empty, so the second one is the single token `s1`
      have hv1 : Split v 58 = [s1] := by
        cases h1 : Split s 58 with
        | nil => exact absurd h1 (Split_ne_nil _ _)
        | cons x xs =>
          cases h2 : Split v 58 with
          | nil => exact absurd h2 (Split_ne_nil _ _)
          | cons y ys =>
            rw [h1, h2] at hs
            have hl := congrArg List.length hs
            simp at hl
            have hxs : xs = [] := List.length_eq_zero.mp (by omega)
            have hys : ys = [] := List.length_eq_zero.mp (by omega)
            subst hxs hys
            simp at hs
            rw [hs.2]
      have := Split_eq_singleton v s1 58 hv1
      subst this
      have := hv value hp
      omega
  refine ⟨hA, hB, ?_, ?_, ?_⟩
  · intro e s n hn
    apply hB
    intro m hm
    have := ParseInt_fmtInt n m hm
    omega
  · intro e
    exact hB e (bytes "1.0") (bytes "9") (by decide!)
  · intro e
    exact hB e (bytes "1.0") (bytes "-1") (by decide!)

/-- Witness of C6, at the texts `1.0:9` and `1.0:-1`. -/
theorem C6_value_range_and_single_error_witness :
    ((9 : Int) < 0 ∨ (4 : Int) < 9) ∧
    Event.UnmarshalText Event.zero (bytes "1.0" ++ 58 :: fmtInt 9) =
      (Event.zero, some ErrEventFormat) ∧
    Event.UnmarshalText Event.zero (bytes "1.0" ++ 58 :: fmtInt (-1)) =
      (Event.zero, some ErrEventFormat) :=
  ⟨by decide, C6_value_range_and_single_error.2.2.1 Event.zero (bytes "1.0") 9 (by decide),
   C6_value_range_and_single_error.2.2.1 Event.zero (bytes "1.0") (-1) (by decide)⟩


/-- C7: a text whose split on `:` does not give exactly two tokens, that is a text with no
`:` or with two or more, fails with `ErrEventFormat` (the receiver untouched); so do `bad`,
the empty text and `1:2:3`. -/
theorem C7_token_count :
    (∀ (e : Event) (text : Text), (Split text 58).length ≠ 2 →
      Event.UnmarshalText e text = (e, some ErrEventFormat)) ∧
    (∀ (e : Event) (text : Text), Count text 58 ≠ 1 →
      Event.UnmarshalText e text = (e, some ErrEventFormat)) ∧
    (∀ e : Event, Event.UnmarshalText e (bytes "bad") = (e, some ErrEventFormat)) ∧
    (∀ e : Event, Event.UnmarshalText e (bytes "") = (e, some ErrEventFormat)) ∧
    (∀ e : Event, Event.UnmarshalText e (bytes "1:2:3") = (e, some ErrEventFormat)) := by
  have hA : ∀ (e : Event) (text : Text), (Split text 58).length ≠ 2 →
      Event.UnmarshalText e text = (e, some ErrEventFormat) := by
    intro e text hlen
    rcases Event.UnmarshalText_cases e text with h | ⟨e1, h⟩
    · exact h
    · obtain ⟨s0, s1, _, _, hs, _⟩ := (Event.UnmarshalText_ok_iff e e1 text).mp h
      rw [hs] at hlen
      simp at hlen
  refine ⟨hA, ?_, ?_, ?_, ?_⟩
  · intro e text hc
    apply hA
    rw [Split_length]
    omega
  · intro e
    exact hA e _ (by decide!)
  · intro e
    exact hA e _ (by decide!)
  · intro e
    exact hA e _ (by decide!)

/-- Witness of C7, at the text `1:2:3`. -/
theorem C7_token_count_witness :
    (Split (bytes "1:2:3") 58).length ≠ 2 ∧
    Event.UnmarshalText Event.zero (bytes "1:2:3") = (Event.zero, some ErrEventFormat) :=
  ⟨by decide!, C7_token_count.1 Event.zero (bytes "1:2:3") (by decide!)⟩

/-- C9: when the text trims to `{` + inner + `}` and every comma-separated token of
inner decodes, the call succeeds and the new collection is the list of the decoded tokens
in their order in the text; nothing is sorted: `{0.00:1,0.50:2}` gives
`[{0ms,1},{500ms,2}]` and `{0.50:2,0.00:1}` gives `[{500ms,2},{0ms,1}]`. -/
theorem C9_decode_keeps_token_order :
    (∀ (es : Events) (text inner : Text), TrimSpace text = 123 :: (inner ++ [125]) →
      (∀ tok ∈ Split inner 44, (Event.UnmarshalText Event.zero tok).2 = none) →
      Events.UnmarshalText es text =
        .returned ((Split inner 44).map fun tok => (Event.UnmarshalText Event.zero tok).1)
          none) ∧
    (∀ es : Events, Events.UnmarshalText es (bytes "{0.00:1,0.50:2}") =
      .returned [{ Time := 0, Value := 1 }, { Time := 500 * Millisecond, Value := 2 }] none) ∧
    (∀ es : Events, Events.UnmarshalText es (bytes "{0.50:2,0.00:1}") =
      .returned [{ Time := 500 * Millisecond, Value := 2 }, { Time := 0, Value := 1 }] none) := by
  have hA : ∀ (es : Events) (text inner : Text), TrimSpace text = 123 :: (inner ++ [125]) →
      (∀ tok ∈ Split inner 44, (Event.UnmarshalText Event.zero tok).2 = none) →
      Events.UnmarshalText es text =
        .returned ((Split inner 44).map fun tok => (Event.UnmarshalText Event.zero tok).1)
          none := by
    intro es text inner ht hall
    rw [Events.UnmarshalText_done es text 123 125 inner ht hall]
    simp
    intro tok _
    rfl
  refine ⟨hA, fun es => ?_, fun es => ?_⟩
  · rw [hA es _ (bytes "0.00:1,0.50:2") (by decide!) (by decide!)]
    decide!
  · rw [hA es _ (bytes "0.50:2,0.00:1") (by decide!) (by decide!)]
    decide!

/-- Witness of C9, at the text `{0.50:2,0.00:1}`, whose events are not in ascending
order of time. -/
theorem C9_decode_keeps_token_order_witness :
    TrimSpace (bytes " {0.50:2,0.00:1}\n") = 123 :: (bytes "0.50:2,0.00:1" ++ [125]) ∧
    (∀ tok ∈ Split (bytes "0.50:2,0.00:1") 44,
      (Event.UnmarshalText Event.zero tok).2 = none) ∧
    Events.UnmarshalText [] (bytes " {0.50:2,0.00:1}\n") =
      .returned ((Split (bytes "0.50:2,0.00:1") 44).map fun tok =>
        (Event.UnmarshalText Event.zero tok).1) none :=
  ⟨by decide!, by decide!,
   C9_decode_keeps_token_order.1 [] (bytes " {0.50:2,0.00:1}\n") (bytes "0.50:2,0.00:1")
     (by decide!) (by decide!)⟩

/-- C10: when the trimmed text has an inner content (it is `a` + inner + `b` for some
bytes `a` and `b`) and at least one comma-separated token of inner fails
`Event.UnmarshalText`, the call returns `ErrEventFormat`, the error of the first failing
token, and the receiver is exactly the collection it was before the call. -/
theorem C10_decode_all_or_nothing (es : Events) (text : Text) (a b : Nat) (inner : Text)
    (ht : TrimSpace text = a :: (inner ++ [b]))
    (hbad : ∃ tok ∈ Split inner 44, (Event.UnmarshalText Event.zero tok).2 ≠ none) :
    Events.UnmarshalText es text = .returned es (some ErrEventFormat) :=
  Events.UnmarshalText_failed es text a b inner ht hbad

/-- Witness of C10: the second of three tokens is malformed and the receiver, a
collection of one event, is returned unchanged. -/
theorem C10_decode_all_or_nothing_witness :
    TrimSpace (bytes "{0.00:1,bad,0.50:2}") = 123 :: (bytes "0.00:1,bad,0.50:2" ++ [125]) ∧
    (∃ tok ∈ Split (bytes "0.00:1,bad,0.50:2") 44,
      (Event.UnmarshalText Event.zero tok).2 ≠ none) ∧
    Events.UnmarshalText [{ Time := 7, Value := 3 }] (bytes "{0.00:1,bad,0.50:2}") =
      .returned [{ Time := 7, Value := 3 }] (some ErrEventFormat) :=
  ⟨by decide!, ⟨bytes "bad", by decide!, by decide!⟩,
   C10_decode_all_or_nothing [{ Time := 7, Value := 3 }] (bytes "{0.00:1,bad,0.50:2}") 123 125
     (bytes "0.00:1,bad,0.50:2") (by decide!) ⟨bytes "bad", by decide!, by decide!⟩⟩


theorem wrap64_of_range (x : Int) (h1 : -9223372036854775808 ≤ x)
    (h2 : x < 9223372036854775808) : wrap64 x = x := by
  unfold wrap64
  norm_num
  omega

theorem toInt64_of_trunc (y : F64) (m : Int) (h : y.trunc = some m)
    (h1 : -9223372036854775808 ≤ m) (h2 : m < 9223372036854775808) : y.toInt64 = m := by
  cases y with
  | fin k =>
    simp only [F64.trunc, Option.some.injEq] at h
    simp only [F64.toInt64, h]
    norm_num
    intro h3
    omega
  | inf n => simp [F64.trunc] at h
  | nan => simp [F64.trunc] at h

/-- C8 counterexample: the seconds field of `1e13:0` parses to a number whose product with
1000 truncates to `10^16`, which fits `int64`, but the decoded `Time` is not `10^16` ms:
the multiplication by `time.Millisecond` wraps around. -/
theorem C8_counterexample :
    Split (bytes "1e13:0") 58 = [bytes "1e13", bytes "0"] ∧
    ((ParseFloat (bytes "1e13")).map fun x => (F64.mul x (F64.ofInt 1000)).trunc) =
      some (some 10000000000000000) ∧
    ParseInt (bytes "0") = some 0 ∧
    Event.UnmarshalText Event.zero (bytes "1e13:0") =
      ({ Time := 1864712049423024128, Value := 0 }, none) ∧
    (1864712049423024128 : Int) ≠ 10000000000000000 * Millisecond := by
  decide!

/-- C8 (amended): when the text splits on `:` into exactly the fields `s` and `v`, `s`
parses to the `float64` `x`, `v` parses to an integer `n` in `[0,4]`, and the integer part
`m` of the `float64` product `x * 1000` is at most `9223372036854` in absolute value (so
that `m` milliseconds fit a `Duration`), the call succeeds with `Value = n` and
`Time = m` milliseconds; the fraction is cut off, not rounded: `1.00:2` gives
`{1000ms, 2}` and `1.9999:0` gives `1999ms`. -/
theorem C8_timestamp_truncation :
    (∀ (e : Event) (text s v : Text) (x : F64) (n m : Int),
      Split text 58 = [s, v] → ParseFloat s = some x → ParseInt v = some n →
      0 ≤ n → n ≤ 4 → (F64.mul x (F64.ofInt 1000)).trunc = some m →
      -9223372036854 ≤ m → m ≤ 9223372036854 →
      Event.UnmarshalText e text = ({ Time := m * Millisecond, Value := n }, none)) ∧
    (∀ e : Event, Event.UnmarshalText e (bytes "1.00:2") =
      ({ Time := 1000 * Millisecond, Value := 2 }, none)) ∧
    (∀ e : Event, Event.UnmarshalText e (bytes "1.9999:0") =
      ({ Time := 1999 * Millisecond, Value := 0 }, none)) := by
  have hA : ∀ (e : Event) (text s v : Text) (x : F64) (n m : Int),
      Split text 58 = [s, v] → ParseFloat s = some x → ParseInt v = some n →
      0 ≤ n → n ≤ 4 → (F64.mul x (F64.ofInt 1000)).trunc = some m →
      -9223372036854 ≤ m → m ≤ 9223372036854 →
      Event.UnmarshalText e text = ({ Time := m * Millisecond, Value := n }, none) := by
    intro e text s v x n m hs hx hv h0 h4 hm h1 h2
    rw [Event.UnmarshalText_ok_iff]
    refine ⟨s, v, x, n, hs, hx, hv, h0, h4, ?_⟩
    rw [toInt64_of_trunc _ m hm (by omega) (by omega)]
    rw [wrap64_of_range]
    · simp only [Millisecond]; omega
    · simp only [Millisecond]; omega
  refine ⟨hA, fun e => ?_, fun e => ?_⟩
  · exact Event.UnmarshalText_recv Event.zero e _ _ (by decide!)
  · exact Event.UnmarshalText_recv Event.zero e _ _ (by decide!)

/-- Witness of C8 (amended), at the text `1.9999:0`. -/
theorem C8_timestamp_truncation_witness :
    Split (bytes "1.9999:0") 58 = [bytes "1.9999", bytes "0"] ∧
    ParseInt (bytes "0") = some 0 ∧
    (∃ x, ParseFloat (bytes "1.9999") = some x ∧
      (F64.mul x (F64.ofInt 1000)).trunc = some 1999) ∧
    Event.UnmarshalText Event.zero (bytes "1.9999:0") =
      ({ Time := 1999 * Millisecond, Value := 0 }, none) :=
  ⟨by decide!, by decide!,
   ⟨(ParseFloat (bytes "1.9999")).get (by decide!), by simp, by decide!⟩,
   C8_timestamp_truncation.1 Event.zero (bytes "1.9999:0") (bytes "1.9999") (bytes "0")
     ((ParseFloat (bytes "1.9999")).get (by decide!)) 0 1999
     (by decide!) (by simp) (by decide!) (by decide) (by decide) (by decide!)
     (by decide) (by decide)⟩


/-! ## Lemmas: exact `float64` operations -/

theorem bitSearch_le (n : Nat) (ks : List Nat) : ∀ acc : Nat, 2 ^ acc ≤ n →
    2 ^ ks.foldl (fun acc k => if 2 ^ (acc + k) ≤ n then acc + k else acc) acc ≤ n := by
  induction ks with
  | nil => intro acc h; simpa using h
  | cons k rest ih =>
    intro acc h
    simp only [List.foldl_cons]
    by_cases hk : 2 ^ (acc + k) ≤ n
    · rw [if_pos hk]
      exact ih _ hk
    · rw [if_neg hk]
      exact ih _ h

theorem two_pow_ilog2_le : ∀ (fuel n : Nat), 1 ≤ n → 2 ^ ilog2 fuel n ≤ n := by
  intro fuel
  induction fuel with
  | zero => intro n h; simpa [ilog2] using h
  | succ f ih =>
    intro n h
    rw [ilog2]
    have hpos : 0 < block := by
      unfold block
      positivity
    by_cases hb : block ≤ n
    · rw [if_pos hb]
      have h1 : 1 ≤ n / block := Nat.div_pos hb hpos
      have := ih (n / block) h1
      calc 2 ^ (ilog2 f (n / block) + 2048) = 2 ^ ilog2 f (n / block) * block := by
            rw [pow_add, block]
        _ ≤ n / block * block := Nat.mul_le_mul_right _ this
        _ ≤ n := Nat.div_mul_le_self n block
    · rw [if_neg hb]
      exact bitSearch_le n _ 0 (by simpa using h)

theorem ilog2_lt_of_lt (fuel n b : Nat) (h : n < 2 ^ b) (hn : 1 ≤ n) : ilog2 fuel n < b :=
  (Nat.pow_lt_pow_iff_right (by norm_num : 1 < 2)).mp
    (lt_of_le_of_lt (two_pow_ilog2_le fuel n hn) h)

theorem bitStep_lt (n acc k k2 : Nat) (h : n < 2 ^ (acc + k2)) (hk : k2 = k + k) :
    n < 2 ^ ((if 2 ^ (acc + k) ≤ n then acc + k else acc) + k) := by
  subst hk
  by_cases hk : 2 ^ (acc + k) ≤ n
  · rw [if_pos hk, Nat.add_assoc]
    exact h
  · rw [if_neg hk]
    omega

theorem bitSearch_lt (n : Nat) (h : n < block) :
    n < 2 ^ ([1024, 512, 256, 128, 64, 32, 16, 8, 4, 2, 1].foldl
      (fun acc k => if 2 ^ (acc + k) ≤ n then acc + k else acc) 0 + 1) := by
  have h0 : n < 2 ^ (0 + 2048) := by
    rw [Nat.zero_add]
    exact h
  have h1 := bitStep_lt n 0 1024 2048 h0 rfl
  have h2 := bitStep_lt n _ 512 1024 h1 rfl
  have h3 := bitStep_lt n _ 256 512 h2 rfl
  have h4 := bitStep_lt n _ 128 256 h3 rfl
  have h5 := bitStep_lt n _ 64 128 h4 rfl
  have h6 := bitStep_lt n _ 32 64 h5 rfl
  have h7 := bitStep_lt n _ 16 32 h6 rfl
  have h8 := bitStep_lt n _ 8 16 h7 rfl
  have h9 := bitStep_lt n _ 4 8 h8 rfl
  have h10 := bitStep_lt n _ 2 4 h9 rfl
  have h11 := bitStep_lt n _ 1 2 h10 rfl
  simp only [List.foldl]
  exact h11

theorem lt_two_pow_ilog2 : ∀ (fuel n : Nat), n < 2 ^ (2048 * fuel) →
    n < 2 ^ (ilog2 fuel n + 1) := by
  intro fuel
  induction fuel with
  | zero =>
    intro n h
    have h0 : n = 0 := by simpa using h
    subst h0
    simp [ilog2]
  | succ f ih =>
    intro n h
    have hpos : 0 < block := by
      unfold block
      positivity
    rw [ilog2]
    by_cases hb : block ≤ n
    · rw [if_pos hb]
      have h1 : n / block < 2 ^ (2048 * f) := by
        rw [Nat.div_lt_iff_lt_mul hpos]
        have : 2 ^ (2048 * (f + 1)) = 2 ^ (2048 * f) * block := by
          rw [block, ← pow_add]
          congr 1
        rw [← this]
        exact h
      have h2 := ih (n / block) h1
      rw [Nat.div_lt_iff_lt_mul hpos] at h2
      have : 2 ^ (ilog2 f (n / block) + 2048 + 1) = 2 ^ (ilog2 f (n / block) + 1) * block := by
        rw [block, ← pow_add]
      rw [this]
      exact h2
    · rw [if_neg hb]
      exact bitSearch_lt n (by omega)

/-- With the number itself as fuel, `ilog2` is the floor of the binary logarithm. -/
theorem ilog2_spec (n : Nat) (hn : 1 ≤ n) :
    2 ^ ilog2 n n ≤ n ∧ n < 2 ^ (ilog2 n n + 1) := by
  refine ⟨two_pow_ilog2_le n n hn, lt_two_pow_ilog2 n n ?_⟩
  calc n < 2 ^ n := Nat.lt_two_pow n
    _ ≤ 2 ^ (2048 * n) := Nat.pow_le_pow_right (by norm_num) (by omega)

theorem unit_pos : 0 < F64.unit := by
  unfold F64.unit
  positivity

theorem roundMag_aux (n den s : Nat) (hden : 0 < den) (hs : s ≤ 1074) :
    (if den * 2 ^ s < 2 * (n * den * F64.unit % (den * 2 ^ s)) ∨
        (2 * (n * den * F64.unit % (den * 2 ^ s)) = den * 2 ^ s ∧
          n * den * F64.unit / (den * 2 ^ s) % 2 = 1)
      then n * den * F64.unit / (den * 2 ^ s) + 1
      else n * den * F64.unit / (den * 2 ^ s)) * 2 ^ s = n * F64.unit := by
  have hd : 0 < den * 2 ^ s := Nat.mul_pos hden (by positivity)
  have hp : F64.unit = 2 ^ (1074 - s) * 2 ^ s := by
    rw [← pow_add, F64.unit]
    congr 1
    omega
  have hP : n * den * F64.unit = n * 2 ^ (1074 - s) * (den * 2 ^ s) := by
    rw [hp]
    ring
  rw [hP, Nat.mul_mod_left, Nat.mul_div_cancel _ hd]
  have hc : ¬ (den * 2 ^ s < 2 * 0 ∨ (2 * 0 = den * 2 ^ s ∧ n * 2 ^ (1074 - s) % 2 = 1)) := by
    omega
  rw [if_neg hc, hp]
  ring

/-- A multiple `n * den / den` with `n` below `2^53` is rounded to itself. -/
theorem roundMag_exact (n den : Nat) (hden : 0 < den) (hn : n < 2 ^ 53) :
    F64.roundMag (n * den) den = n * F64.unit := by
  have hx : n * den * F64.unit / den = n * F64.unit := by
    rw [Nat.mul_right_comm, Nat.mul_div_cancel _ hden]
  have hlt : n * F64.unit < 2 ^ 1127 := by
    have : (2 : Nat) ^ 1127 = 2 ^ 53 * F64.unit := by rw [F64.unit, ← pow_add]
    rw [this]
    exact Nat.mul_lt_mul_of_pos_right hn unit_pos
  have hs : ilog2 (n * F64.unit) (n * F64.unit) + 1 - 53 ≤ 1074 := by
    by_cases h1 : 1 ≤ n * F64.unit
    · have := ilog2_lt_of_lt (n * F64.unit) (n * F64.unit) 1127 hlt h1
      omega
    · have h0 : n * F64.unit = 0 := by omega
      rw [h0]
      decide
  simp only [F64.roundMag, hx]
  exact roundMag_aux n den _ hden hs

theorem round_exact (n den : Nat) (hden : 0 < den) (hn : n < 2 ^ 53) :
    F64.round false (n * den) den = .fin ((n * F64.unit : Nat) : Int) := by
  have hmax : ¬ (F64.maxMag < n * F64.unit) := by
    have h1 : n ≤ (2 ^ 53 - 1) * 2 ^ 971 := by
      have : (2 : Nat) ^ 53 - 1 ≤ (2 ^ 53 - 1) * 2 ^ 971 :=
        Nat.le_mul_of_pos_right _ (by positivity)
      omega
    have h2 := Nat.mul_le_mul_right F64.unit h1
    unfold F64.maxMag
    omega
  simp only [F64.round, roundMag_exact n den hden hn, hmax, if_false, Bool.false_eq_true]

theorem natCast_not_neg (n : Nat) : decide ((n : Int) < 0) = false :=
  decide_eq_false (by omega)

/-- An integer below `2^53` is a `float64`. -/
theorem ofInt_exact (n : Nat) (hn : n < 2 ^ 53) :
    F64.ofInt (n : Int) = .fin ((n * F64.unit : Nat) : Int) := by
  have h := round_exact n 1 (by norm_num) hn
  rw [Nat.mul_one] at h
  unfold F64.ofInt
  rw [natCast_not_neg, Int.natAbs_ofNat, h]

theorem ofInt_zero : F64.ofInt 0 = .fin 0 := by
  have h := ofInt_exact 0 (by norm_num)
  rw [Nat.zero_mul] at h
  exact h


/-- A whole number of seconds is converted exactly. -/
theorem Seconds_whole (k : Nat) (hk : k < 2 ^ 53) :
    Seconds ((k : Int) * 1000000000) = .fin ((k * F64.unit : Nat) : Int) := by
  have h1 : Int.tdiv ((k : Int) * 1000000000) 1000000000 = (k : Int) :=
    Int.mul_tdiv_cancel _ (by norm_num)
  have h2 : Int.tmod ((k : Int) * 1000000000) 1000000000 = 0 := Int.mul_tmod_left _ _
  have h4 : F64.ofInt 1000000000 = .fin ((1000000000 * F64.unit : Nat) : Int) :=
    ofInt_exact 1000000000 (by norm_num)
  have hU : 0 < 1000000000 * F64.unit := Nat.mul_pos (by norm_num) unit_pos
  have h5 : ((1000000000 * F64.unit : Nat) : Int) ≠ 0 := by omega
  have h6 : F64.div (.fin 0) (.fin ((1000000000 * F64.unit : Nat) : Int)) = .fin 0 := by
    have hr := round_exact 0 (1000000000 * F64.unit) hU (by norm_num)
    rw [Nat.zero_mul, Nat.zero_mul] at hr
    have hz : decide ((0 : Int) < 0) = false := by decide
    simp only [F64.div, h5, if_false, natCast_not_neg, hz, Int.natAbs_ofNat, Int.natAbs_zero,
      bne_self_eq_false]
    exact hr
  have h7 := round_exact k F64.unit unit_pos hk
  unfold Seconds
  rw [h1, h2, ofInt_exact k hk, ofInt_zero, h4, h6]
  simp only [F64.add, Int.add_zero, natCast_not_neg, Int.natAbs_ofNat, h7]

/-- The verb `%.2f` on a whole number. -/
theorem fmtFixed2_whole (k : Nat) :
    fmtFixed2 (.fin ((k * F64.unit : Nat) : Int)) = fmtNat k ++ [46, 48, 48] := by
  have hpos : 0 < F64.unit := unit_pos
  have hnum : k * F64.unit * 100 = k * 100 * F64.unit := Nat.mul_right_comm _ _ _
  have hq : k * 100 * F64.unit / F64.unit = k * 100 := Nat.mul_div_cancel _ hpos
  have hr : k * 100 * F64.unit % F64.unit = 0 := Nat.mul_mod_left _ _
  have hneg : ¬ (((k * F64.unit : Nat) : Int) < 0) := by omega
  have hc : ¬ (F64.unit < 2 * 0 ∨ (2 * 0 = F64.unit ∧ k * 100 % 2 = 1)) := by omega
  have h1 : k * 100 / 100 = k := Nat.mul_div_cancel _ (by norm_num)
  have h2 : k * 100 % 100 / 10 = 0 := by omega
  have h3 : k * 100 % 10 = 0 := by omega
  simp only [fmtFixed2, Int.natAbs_ofNat, hnum, hq, hr, hneg, hc, if_false, h1, h2, h3,
    List.nil_append, Nat.add_zero]

/-- The product with 1000 of a whole number below `2^53 / 1000` is exact. -/
theorem mul_thousand_whole (k : Nat) (hk : k * 1000 < 2 ^ 53) :
    F64.mul (.fin ((k * F64.unit : Nat) : Int)) (F64.ofInt 1000) =
      .fin ((k * 1000 * F64.unit : Nat) : Int) := by
  have h1 : F64.ofInt 1000 = .fin ((1000 * F64.unit : Nat) : Int) :=
    ofInt_exact 1000 (by norm_num)
  have h4 : k * F64.unit * (1000 * F64.unit) = k * 1000 * (F64.unit * F64.unit) := by ring
  have h5 := round_exact (k * 1000) (F64.unit * F64.unit) (Nat.mul_pos unit_pos unit_pos) hk
  rw [h1]
  simp only [F64.mul, natCast_not_neg, Int.natAbs_ofNat, h4, bne_self_eq_false]
  exact h5

theorem trunc_whole (n : Nat) :
    (F64.fin ((n * F64.unit : Nat) : Int)).trunc = some (n : Int) := by
  simp only [F64.trunc]
  rw [← Int.ofNat_tdiv, Nat.mul_div_cancel _ unit_pos]


/-! ## Lemmas: `ParseFloat` on the text of a whole number -/

theorem lower_digit (c : Nat) (h : 48 ≤ c ∧ c ≤ 57) : lower c = c := by
  unfold lower
  have : ¬ (c / 32 % 2 = 0) := by omega
  rw [if_neg this]

theorem special_digit (c : Nat) (r : Text) (h : 48 ≤ c ∧ c ≤ 57) : special (c :: r) = none := by
  have h1 : ¬ c = 43 := by omega
  have h2 : ¬ c = 45 := by omega
  have h3 : ¬ (c = 105 ∨ c = 73) := by omega
  have h4 : ¬ (c = 110 ∨ c = 78) := by omega
  simp only [special, h1, h2, h3, h4, if_false]

theorem scanMant_digits (ds : Text) : ∀ (m v : Nat), digitsVal ds m = some v →
    ∀ (rest : Text) (f : Nat) (u : Bool) (r0 : Text),
    scanMant 10 (ds ++ rest)
        { mant := m, frac := f, sawdot := false, sawdigits := true, underscores := u, rest := r0 } =
      scanMant 10 rest
        { mant := v, frac := f, sawdot := false, sawdigits := true, underscores := u, rest := r0 } := by
  induction ds with
  | nil =>
    intro m v h rest f u r0
    simp only [digitsVal, Option.some.injEq] at h
    subst h
    rfl
  | cons c cs ih =>
    intro m v h rest f u r0
    by_cases hc : 48 ≤ c ∧ c ≤ 57
    · simp only [digitsVal, hc, and_self, if_true] at h
      have h1 : ¬ c = 95 := by omega
      have h2 : ¬ c = 46 := by omega
      simp only [List.cons_append, scanMant, h1, h2, hc, and_self, if_true, if_false,
        Bool.false_eq_true]
      exact ih _ _ h rest f u r0
    · simp [digitsVal, hc] at h

theorem scanMant_cents (v : Nat) :
    scanMant 10 [46, 48, 48]
        { mant := v, frac := 0, sawdot := false, sawdigits := true, underscores := false,
          rest := [] } =
      { mant := v * 100, frac := 2, sawdot := true, sawdigits := true, underscores := false,
        rest := [] } := by
  simp [scanMant]
  omega

/-- The text `<digits of k>.00` is read as the whole number `k`. -/
theorem readFloat_whole (k : Nat) :
    readFloat (fmtNat k ++ [46, 48, 48]) =
      some { neg := false, hex := false, mant := k * 100, exp := -2 } := by
  cases hf : fmtNat k with
  | nil => exact absurd hf (fmtNat_ne_nil k)
  | cons c r =>
    have hc : 48 ≤ c ∧ c ≤ 57 := fmtNat_digit k c (by simp [hf])
    have hv : digitsVal r (0 * 10 + (c - 48)) = some k := by
      have := digitsVal_fmtNat k
      rw [hf] at this
      simpa [digitsVal, hc] using this
    have h1 : ¬ c = 45 := by omega
    have h2 : ¬ (c = 43 ∨ c = 45) := by omega
    have h3 : ¬ c = 95 := by omega
    have h4 : ¬ c = 46 := by omega
    have hscan : scanMant 10 (c :: (r ++ [46, 48, 48]))
        { mant := 0, frac := 0, sawdot := false, sawdigits := false, underscores := false,
          rest := [] } =
        { mant := k * 100, frac := 2, sawdot := true, sawdigits := true, underscores := false,
          rest := [] } := by
      simp only [scanMant, h3, h4, hc, and_self, if_true, if_false, Bool.false_eq_true]
      rw [scanMant_digits r _ k hv, scanMant_cents]
    have hhex : hexPrefix (c :: (r ++ [46, 48, 48])) = false := by
      cases r with
      | nil => simp [hexPrefix, lower]
      | cons c1 r1 =>
        have hc1 : 48 ≤ c1 ∧ c1 ≤ 57 := fmtNat_digit k c1 (by simp [hf])
        cases r1 <;> simp [hexPrefix, lower_digit c1 hc1] <;> omega
    simp only [List.cons_append, readFloat, h2, if_false, hhex]
    simp only [readNumber, Bool.false_eq_true, if_false, hscan]
    simp [h1]

/-- `ParseFloat` reads the text `<digits of k>.00` as the whole number `k`. -/
theorem ParseFloat_whole (k : Nat) (hk : k < 2 ^ 53) :
    ParseFloat (fmtNat k ++ [46, 48, 48]) = some (.fin ((k * F64.unit : Nat) : Int)) := by
  have hsp : special (fmtNat k ++ [46, 48, 48]) = none := by
    cases hf : fmtNat k with
    | nil => exact absurd hf (fmtNat_ne_nil k)
    | cons c r => exact special_digit c _ (fmtNat_digit k c (by simp [hf]))
  have hr := round_exact k (10 ^ 2) (by norm_num) hk
  have h100 : k * 100 = k * 10 ^ 2 := by norm_num
  unfold ParseFloat
  rw [hsp, readFloat_whole]
  simp only [Bool.false_eq_true, if_false]
  have hneg : ¬ ((0 : Int) ≤ -2) := by omega
  rw [if_neg hneg]
  have he : (-(-2 : Int)).toNat = 2 := by decide
  rw [he, h100, hr]


/-! ## Lemmas: the text of an event -/

theorem fmtFixed2_clean (x : F64) (c : Nat) (h : c ∈ fmtFixed2 x) : c ≠ 58 ∧ c ≠ 44 := by
  cases x with
  | fin k =>
    simp only [fmtFixed2, List.mem_append, List.mem_cons, List.mem_singleton,
      List.not_mem_nil, or_false] at h
    rcases h with (h | h) | h
    · split at h
      · simp only [List.mem_singleton] at h
        omega
      · simp at h
    · have := fmtNat_digit _ _ h
      omega
    · omega
  | inf neg =>
    have h1 : bytes "-Inf" = [45, 73, 110, 102] := by decide
    have h2 : bytes "+Inf" = [43, 73, 110, 102] := by decide
    cases neg <;> simp [fmtFixed2, h1, h2] at h <;> omega
  | nan =>
    have h1 : bytes "NaN" = [78, 97, 78] := by decide
    simp [fmtFixed2, h1] at h
    omega

theorem fmtInt_clean (v : Int) (c : Nat) (h : c ∈ fmtInt v) : c ≠ 58 ∧ c ≠ 44 := by
  unfold fmtInt at h
  split at h
  · simp only [List.mem_cons] at h
    rcases h with h | h
    · omega
    · have := fmtNat_digit _ _ h
      omega
  · have := fmtNat_digit _ _ h
    omega

theorem Sprintf_no_comma (x : F64) (v : Int) : 44 ∉ Sprintf x v := by
  intro h
  simp only [Sprintf, List.mem_append, List.mem_singleton] at h
  rcases h with (h | h) | h
  · exact (fmtFixed2_clean x 44 h).2 rfl
  · omega
  · exact (fmtInt_clean v 44 h).2 rfl

theorem ParseInt_fmtInt_small (v : Int) (h0 : 0 ≤ v) (h4 : v ≤ 4) :
    ParseInt (fmtInt v) = some v := by
  have hv : v = 0 ∨ v = 1 ∨ v = 2 ∨ v = 3 ∨ v = 4 := by omega
  rcases hv with rfl | rfl | rfl | rfl | rfl <;> decide

/-- An event with a `Value` in `[0,4]` whose `Time` survives the codec is decoded from its
own text, whatever the receiver held. -/
theorem Event_roundtrip (e e0 : Event) (h0 : 0 ≤ e.Value) (h4 : e.Value ≤ 4)
    (ht : timeRoundTrips e.Time = true) :
    Event.UnmarshalText e0 e.MarshalText.1 = (e, none) := by
  unfold timeRoundTrips at ht
  cases hx : ParseFloat (fmtFixed2 (Seconds e.Time)) with
  | none => simp [hx] at ht
  | some x =>
    simp only [hx, decide_eq_true_eq] at ht
    rw [Event.UnmarshalText_ok_iff]
    refine ⟨fmtFixed2 (Seconds e.Time), fmtInt e.Value, x, e.Value, ?_, hx,
      ParseInt_fmtInt_small _ h0 h4, h0, h4, ?_⟩
    · have h1 : 58 ∉ fmtFixed2 (Seconds e.Time) := fun h => (fmtFixed2_clean _ 58 h).1 rfl
      have h2 : 58 ∉ fmtInt e.Value := fun h => (fmtInt_clean _ 58 h).1 rfl
      have h3 : e.MarshalText.1 = fmtFixed2 (Seconds e.Time) ++ 58 :: fmtInt e.Value := by
        simp [Event.MarshalText, Sprintf]
      rw [h3, Split_append, Split_of_not_mem _ _ h1, Split_of_not_mem _ _ h2]
      rfl
    · rw [ht]

/-- A whole number of seconds that fits a `Duration` survives the codec. -/
theorem timeRoundTrips_whole (k : Nat) (hk : k ≤ 9223372036) :
    timeRoundTrips ((k : Int) * 1000 * Millisecond) = true := by
  have h53 : k < 2 ^ 53 := by
    have : (9223372036 : Nat) < 2 ^ 53 := by norm_num
    omega
  have h53' : k * 1000 < 2 ^ 53 := by
    have : (9223372036 * 1000 : Nat) < 2 ^ 53 := by norm_num
    omega
  have ht : (k : Int) * 1000 * Millisecond = (k : Int) * 1000000000 := by
    simp only [Millisecond]
    omega
  have hi : (F64.fin ((k * 1000 * F64.unit : Nat) : Int)).toInt64 = ((k * 1000 : Nat) : Int) :=
    toInt64_of_trunc _ _ (trunc_whole (k * 1000)) (by omega) (by omega)
  have hw : wrap64 (((k * 1000 : Nat) : Int) * Millisecond) = (k : Int) * 1000000000 := by
    rw [wrap64_of_range]
    · simp only [Millisecond]; push_cast; omega
    · simp only [Millisecond]; push_cast; omega
    · simp only [Millisecond]; push_cast; omega
  unfold timeRoundTrips
  rw [ht, Seconds_whole k h53, fmtFixed2_whole, ParseFloat_whole k h53]
  simp only [mul_thousand_whole k h53', hi, hw, decide_True]

/-- Every multiple of 10 ms up to 2000 ms survives the codec (checked one by one). -/
theorem timeRoundTrips_grid :
    ∀ n : Nat, n < 201 → timeRoundTrips ((n : Int) * 10 * Millisecond) = true := by
  decide!

/-- C1 counterexample: the event `{1ms, 0}` is encoded as `0.00:0`, which decodes to
`{0ms, 0}`: the text has two decimals only. Also on the 10 ms grid the round trip can fail:
`{2010ms, 0}` is encoded as `2.01:0`, which decodes to `{2009ms, 0}`, because the `float64`
product `2.01 * 1000` is below 2010 and is truncated. -/
theorem C1_counterexample :
    Event.MarshalText { Time := 1 * Millisecond, Value := 0 } = (bytes "0.00:0", none) ∧
    Event.UnmarshalText Event.zero (bytes "0.00:0") = ({ Time := 0, Value := 0 }, none) ∧
    Event.MarshalText { Time := 2010 * Millisecond, Value := 0 } = (bytes "2.01:0", none) ∧
    Event.UnmarshalText Event.zero (bytes "2.01:0") =
      ({ Time := 2009 * Millisecond, Value := 0 }, none) := by
  decide!

/-- C1 (amended): for every event with `Value` in `[0,4]` whose `Time` is a whole number of
seconds (at most 9223372036 s, the range of `Duration`) or a multiple of 10 ms up to
2000 ms, `MarshalText` returns no error and `UnmarshalText` of its text succeeds and
yields the event itself, whatever the receiver held before. -/
theorem C1_single_event_round_trip (e e0 : Event) (h0 : 0 ≤ e.Value) (h4 : e.Value ≤ 4)
    (ht : (∃ k : Nat, k ≤ 9223372036 ∧ e.Time = (k : Int) * 1000 * Millisecond) ∨
      (∃ n : Nat, n ≤ 200 ∧ e.Time = (n : Int) * 10 * Millisecond)) :
    e.MarshalText.2 = none ∧ Event.UnmarshalText e0 e.MarshalText.1 = (e, none) := by
  refine ⟨rfl, Event_roundtrip e e0 h0 h4 ?_⟩
  rcases ht with ⟨k, hk, h⟩ | ⟨n, hn, h⟩
  · rw [h]
    exact timeRoundTrips_whole k hk
  · rw [h]
    exact timeRoundTrips_grid n (by omega)

/-- Witness of C1 (amended), at the events `{3s, 4}` and `{500ms, 2}`. -/
theorem C1_single_event_round_trip_witness :
    (Event.UnmarshalText Event.zero
        (Event.MarshalText { Time := 3 * 1000 * Millisecond, Value := 4 }).1 =
      ({ Time := 3 * 1000 * Millisecond, Value := 4 }, none)) ∧
    (Event.UnmarshalText Event.zero
        (Event.MarshalText { Time := 50 * 10 * Millisecond, Value := 2 }).1 =
      ({ Time := 50 * 10 * Millisecond, Value := 2 }, none)) :=
  ⟨(C1_single_event_round_trip { Time := 3 * 1000 * Millisecond, Value := 4 } Event.zero
      (by decide) (by decide) (Or.inl ⟨3, by decide, rfl⟩)).2,
   (C1_single_event_round_trip { Time := 50 * 10 * Millisecond, Value := 2 } Event.zero
      (by decide) (by decide) (Or.inr ⟨50, by decide, rfl⟩)).2⟩


/-! ## Lemmas: the text of a collection -/

theorem Split_Join (xs : List Text) (hne : xs ≠ []) (h : ∀ x ∈ xs, 44 ∉ x) :
    Split (Join xs [44]) 44 = xs := by
  induction xs with
  | nil => exact absurd rfl hne
  | cons x rest ih =>
    cases rest with
    | nil => simpa [Join] using Split_of_not_mem x 44 (h x (by simp))
    | cons y rest2 =>
      have h1 : Join (x :: y :: rest2) [44] = x ++ 44 :: Join (y :: rest2) [44] := by
        simp [Join]
      rw [h1, Split_append, Split_of_not_mem x 44 (h x (by simp)),
        ih (by simp) (fun z hz => h z (by simp [hz]))]
      rfl

theorem trimWith_zero (len : Text → Nat) (fuel : Nat) (s : Text) (h : len s = 0) :
    trimWith len fuel s = s := by
  cases fuel <;> simp [trimWith, h]

theorem spaceLenRev_brace (r : Text) : spaceLenRev (125 :: r) = 0 := by
  cases r with
  | nil => simp [spaceLenRev]
  | cons d r2 => cases r2 <;> simp [spaceLenRev]

/-- A text in braces has no white space to trim. -/
theorem TrimSpace_braces (inner : Text) :
    TrimSpace (123 :: (inner ++ [125])) = 123 :: (inner ++ [125]) := by
  have h1 : TrimLeft (123 :: (inner ++ [125])) = 123 :: (inner ++ [125]) :=
    trimWith_zero _ _ _ (by simp [spaceLen])
  have h2 : (123 :: (inner ++ [125])).reverse = 125 :: (inner.reverse ++ [123]) := by simp
  unfold TrimSpace
  rw [h1]
  unfold TrimRight
  rw [h2, trimWith_zero _ _ _ (spaceLenRev_brace _), ← h2, List.reverse_reverse]

theorem marshalLoop_eq (es : List Event) :
    marshalLoop es = .ok (es.map fun e => e.MarshalText.1) := by
  induction es with
  | nil => rfl
  | cons e rest ih => simp [marshalLoop, ih, Event.MarshalText]

theorem Events.MarshalText_eq (es : Events) :
    Events.MarshalText es =
      (123 :: (Join (es.map fun e => e.MarshalText.1) [44] ++ [125]), none) := by
  simp [Events.MarshalText, marshalLoop_eq]

/-- A non-empty collection whose events are each decoded from their own text is decoded
from its own text. -/
theorem Events_roundtrip (es recv : Events) (hne : es ≠ [])
    (h : ∀ e ∈ es, Event.UnmarshalText Event.zero e.MarshalText.1 = (e, none)) :
    Events.UnmarshalText recv (Events.MarshalText es).1 = .returned es none := by
  have hsplit : Split (Join (es.map fun e => e.MarshalText.1) [44]) 44 =
      es.map fun e => e.MarshalText.1 := by
    apply Split_Join
    · simpa using hne
    · intro x hx
      obtain ⟨e, _, rfl⟩ := List.mem_map.mp hx
      exact Sprintf_no_comma _ _
  rw [Events.MarshalText_eq]
  rw [Events.UnmarshalText_done recv _ 123 125 _ (TrimSpace_braces _)]
  · rw [hsplit]
    simp only [List.map_map]
    have hmap : List.map (decoded ∘ fun e => e.MarshalText.1) es = es := by
      conv_rhs => rw [← List.map_id es]
      apply List.map_congr_left
      intro e he
      simp [decoded, h e he]
    simp [hmap]
  · rw [hsplit]
    intro tok htok
    obtain ⟨e, he, rfl⟩ := List.mem_map.mp htok
    rw [h e he]

/-- C2 counterexample: the non-empty sorted collection `[{1ms, 0}]` is encoded as
`{0.00:0}`, which decodes to `[{0ms, 0}]`. -/
theorem C2_counterexample :
    Events.MarshalText [{ Time := 1 * Millisecond, Value := 0 }] =
      (bytes "{0.00:0}", none) ∧
    Events.UnmarshalText [] (bytes "{0.00:0}") =
      .returned [{ Time := 0, Value := 0 }] none := by
  decide!

/-- C2 (amended): for every non-empty collection, sorted or not, each event of which is
decoded from its own text (as are the events with `Value` in `[0,4]` and a `Time` of whole
seconds, or a multiple of 10 ms up to 2000 ms), `Events.MarshalText` returns no error and
`Events.UnmarshalText` of its text succeeds and yields the collection itself, element by
element and in the same order. -/
theorem C2_collection_round_trip (es recv : Events) (hne : es ≠ [])
    (h : ∀ e ∈ es, Event.UnmarshalText Event.zero e.MarshalText.1 = (e, none)) :
    (Events.MarshalText es).2 = none ∧
    Events.UnmarshalText recv (Events.MarshalText es).1 = .returned es none :=
  ⟨by rw [Events.MarshalText_eq], Events_roundtrip es recv hne h⟩

/-- Witness of C2 (amended), at a collection of three events that is not sorted. -/
theorem C2_collection_round_trip_witness :
    Events.UnmarshalText [{ Time := 7, Value := 3 }]
        (Events.MarshalText [{ Time := 500 * Millisecond, Value := 2 },
          { Time := 0, Value := 1 }, { Time := 3000 * Millisecond, Value := 4 }]).1 =
      .returned [{ Time := 500 * Millisecond, Value := 2 },
        { Time := 0, Value := 1 }, { Time := 3000 * Millisecond, Value := 4 }] none :=
  (C2_collection_round_trip _ _ (by simp) (by decide!)).2


/-! ## Lemmas: `Less` and `Swap` -/

theorem Events.Less_valid (es : Events) (i j : Nat) (hi : i < es.length) (hj : j < es.length) :
    Events.Less es i j = some (decide (es[i].Time < es[j].Time)) := by
  simp [Events.Less, List.getElem?_eq_getElem, hi, hj]

/-- C13: for every collection, `Events.MarshalText` returns no error and the text `{`,
the texts of the events in order joined with `,`, `}`; `[{0ms,1},{500ms,2}]` is encoded
as `{0.00:1,0.50:2}` and the empty collection as `{}`. -/
theorem C13_collection_encode_format :
    (∀ es : Events, Events.MarshalText es =
      ([123] ++ Join (es.map fun e => (Event.MarshalText e).1) [44] ++ [125], none)) ∧
    (∀ e : Event, (Event.MarshalText e).2 = none) ∧
    Events.MarshalText [{ Time := 0, Value := 1 }, { Time := 500 * Millisecond, Value := 2 }] =
      (bytes "{0.00:1,0.50:2}", none) ∧
    Events.MarshalText [] = (bytes "{}", none) := by
  refine ⟨fun es => ?_, fun e => rfl, by decide!, by decide!⟩
  rw [Events.MarshalText_eq]
  simp

/-- C19: for valid indexes `Less(i, j)` is exactly `es[i].Time < es[j].Time`; it is
irreflexive, asymmetric and transitive, being unordered is transitive too, it gives the
same answer on any collection with the same times (the values are ignored), and two
events with equal `Time` are ordered in neither direction. -/
theorem C19_less_strict_weak_order (es : Events) (i j k : Nat)
    (hi : i < es.length) (hj : j < es.length) (hk : k < es.length) :
    Events.Less es i j = some (decide (es[i].Time < es[j].Time)) ∧
    Events.Less es i i = some false ∧
    (Events.Less es i j = some true → Events.Less es j i = some false) ∧
    (Events.Less es i j = some true → Events.Less es j k = some true →
      Events.Less es i k = some true) ∧
    (Events.Less es i j = some false → Events.Less es j i = some false →
      Events.Less es j k = some false → Events.Less es k j = some false →
      Events.Less es i k = some false ∧ Events.Less es k i = some false) ∧
    (∀ es1 : Events, es1.map Event.Time = es.map Event.Time →
      Events.Less es1 i j = Events.Less es i j) ∧
    (es[i].Time = es[j].Time →
      Events.Less es i j = some false ∧ Events.Less es j i = some false) := by
  have hij := Events.Less_valid es i j hi hj
  have hji := Events.Less_valid es j i hj hi
  have hjk := Events.Less_valid es j k hj hk
  have hkj := Events.Less_valid es k j hk hj
  have hik := Events.Less_valid es i k hi hk
  have hki := Events.Less_valid es k i hk hi
  have hii := Events.Less_valid es i i hi hi
  refine ⟨hij, ?_, ?_, ?_, ?_, ?_, ?_⟩
  · simp [hii]
  · rw [hij, hji]
    simp only [Option.some.injEq, decide_eq_true_eq, decide_eq_false_iff_not]
    omega
  · rw [hij, hjk, hik]
    simp only [Option.some.injEq, decide_eq_true_eq]
    omega
  · rw [hij, hji, hjk, hkj, hik, hki]
    simp only [Option.some.injEq, decide_eq_false_iff_not]
    omega
  · intro es1 hmap
    have hlen : es1.length = es.length := by
      have := congrArg List.length hmap
      simpa using this
    have hi1 : i < es1.length := by omega
    have hj1 : j < es1.length := by omega
    have h1 : ∀ n (h : n < es.length) (h2 : n < es1.length), es1[n].Time = es[n].Time := by
      intro n h h2
      have := congrArg (fun l => l[n]?) hmap
      simp [List.getElem?_map, List.getElem?_eq_getElem, h, h2] at this
      exact this
    rw [Events.Less_valid es1 i j hi1 hj1, hij, h1 i hi hi1, h1 j hj hj1]
  · intro heq
    rw [hij, hji]
    simp only [Option.some.injEq, decide_eq_false_iff_not]
    omega

/-- Witness of C19, on a collection of three events of which two have the same time. -/
theorem C19_less_strict_weak_order_witness :
    Events.Less [{ Time := 5, Value := 1 }, { Time := 5, Value := 3 }, { Time := 9, Value := 0 }]
      0 1 = some false ∧
    Events.Less [{ Time := 5, Value := 1 }, { Time := 5, Value := 3 }, { Time := 9, Value := 0 }]
      1 0 = some false :=
  (C19_less_strict_weak_order
    [{ Time := 5, Value := 1 }, { Time := 5, Value := 3 }, { Time := 9, Value := 0 }] 0 1 2
    (by decide) (by decide) (by decide)).2.2.2.2.2.2 (by decide)


/-- C17 (what the code does): the text `,0.00:1,` has the inner content `0.00:1`, a
single token, but the collection is allocated for the two commas of the whole trimmed
text, and the call returns the decoded event followed by two zero events `{0ms,0}`;
`,0.00:1}` leaves one zero event. -/
theorem C17_phantom_zero_events :
    (Split (bytes "0.00:1") 44).length = 1 ∧
    (∀ es : Events, Events.UnmarshalText es (bytes ",0.00:1,") =
      .returned [{ Time := 0, Value := 1 }, Event.zero, Event.zero] none) ∧
    (∀ es : Events, Events.UnmarshalText es (bytes ",0.00:1\x7d") =
      .returned [{ Time := 0, Value := 1 }, Event.zero] none) := by
  refine ⟨by decide!, fun es => ?_, fun es => ?_⟩
  · rw [Events.UnmarshalText_done es _ 44 44 (bytes "0.00:1") (by decide!) (by decide!)]
    decide!
  · rw [Events.UnmarshalText_done es _ 44 125 (bytes "0.00:1") (by decide!) (by decide!)]
    decide!

theorem mul_nonneg_trunc (k m : Int) (hk : 0 ≤ k)
    (hm : (F64.mul (.fin k) (F64.ofInt 1000)).trunc = some m) : 0 ≤ m := by
  have h1 : F64.ofInt 1000 = .fin ((1000 * F64.unit : Nat) : Int) :=
    ofInt_exact 1000 (by norm_num)
  have hk' : decide (k < 0) = false := decide_eq_false (by omega)
  rw [h1] at hm
  simp only [F64.mul, hk', natCast_not_neg, bne_self_eq_false, F64.round] at hm
  split at hm
  · simp [F64.trunc] at hm
  · simp only [Bool.false_eq_true, if_false, F64.trunc, Option.some.injEq] at hm
    rw [← Int.ofNat_tdiv] at hm
    rw [← hm]
    exact Int.ofNat_nonneg _

/-- C14 counterexample: the text `-1.00:2` is decoded without error, to an event with the
negative `Time` of -1000 ms; and the text `1e13:0` is decoded to a `Time` that is not a
whole number of milliseconds, because the multiplication by `time.Millisecond` wraps. -/
theorem C14_counterexample :
    Event.UnmarshalText Event.zero (bytes "-1.00:2") =
      ({ Time := -1000 * Millisecond, Value := 2 }, none) ∧
    (-1000 * Millisecond < 0) ∧
    (Event.UnmarshalText Event.zero (bytes "1e13:0")).2 = none ∧
    (Event.UnmarshalText Event.zero (bytes "1e13:0")).1.Time % Millisecond ≠ 0 := by
  decide!

/-- C14 (amended): when `Event.UnmarshalText` succeeds, the text splits into a seconds
field and a value field, the seconds field parses to a `float64` `x`, and whenever the
integer part `m` of the `float64` product `x * 1000` is at most `9223372036854` in
absolute value the resulting `Time` is `m` milliseconds, a whole number of milliseconds,
which is non-negative when `x` is a non-negative number. -/
theorem C14_time_of_decoded_event (e e1 : Event) (text : Text)
    (h : Event.UnmarshalText e text = (e1, none)) :
    ∃ s v x, Split text 58 = [s, v] ∧ ParseFloat s = some x ∧
      ∀ m, (F64.mul x (F64.ofInt 1000)).trunc = some m →
        -9223372036854 ≤ m → m ≤ 9223372036854 →
        e1.Time = m * Millisecond ∧ ((∃ k, x = .fin k ∧ 0 ≤ k) → 0 ≤ e1.Time) := by
  obtain ⟨s, v, x, value, hs, hx, _, _, _, he⟩ := (Event.UnmarshalText_ok_iff e e1 text).mp h
  refine ⟨s, v, x, hs, hx, ?_⟩
  intro m hm h1 h2
  have ht : e1.Time = m * Millisecond := by
    rw [he]
    simp only
    rw [toInt64_of_trunc _ m hm (by omega) (by omega), wrap64_of_range]
    · simp only [Millisecond]; omega
    · simp only [Millisecond]; omega
  refine ⟨ht, ?_⟩
  rintro ⟨k, rfl, hk⟩
  have := mul_nonneg_trunc k m hk hm
  rw [ht]
  simp only [Millisecond]
  omega

/-- Witness of C14 (amended), at the text `1.9999:0`, decoded to 1999 ms. -/
theorem C14_time_of_decoded_event_witness :
    Event.UnmarshalText Event.zero (bytes "1.9999:0") =
      ({ Time := 1999 * Millisecond, Value := 0 }, none) ∧
    ∃ s v x, Split (bytes "1.9999:0") 58 = [s, v] ∧ ParseFloat s = some x ∧
      ∀ m, (F64.mul x (F64.ofInt 1000)).trunc = some m →
        -9223372036854 ≤ m → m ≤ 9223372036854 →
        (1999 * Millisecond : Int) = m * Millisecond ∧
          ((∃ k, x = .fin k ∧ 0 ≤ k) → 0 ≤ (1999 * Millisecond : Int)) :=
  ⟨by decide!,
   C14_time_of_decoded_event Event.zero { Time := 1999 * Millisecond, Value := 0 }
     (bytes "1.9999:0") (by decide!)⟩


/-! ## Lemmas: insertion sort driven by `Less` and `Swap` -/

theorem getElem?_mid (A : List Event) (y : Event) (B : List Event) :
    (A ++ y :: B)[A.length]? = some y := by
  induction A with
  | nil => simp
  | cons a A ih => simpa using ih

theorem getElem?_mid_succ (A : List Event) (x y : Event) (B : List Event) :
    (A ++ y :: x :: B)[A.length + 1]? = some x := by
  induction A with
  | nil => simp
  | cons a A ih => simpa using ih

theorem Less_adjacent (A : List Event) (x y : Event) (B : List Event) :
    Events.Less (A ++ y :: x :: B) (A.length + 1) A.length =
      some (decide (x.Time < y.Time)) := by
  simp only [Events.Less, getElem?_mid, getElem?_mid_succ]

theorem Swap_adjacent (A : List Event) (x y : Event) (B : List Event) :
    Events.Swap (A ++ y :: x :: B) (A.length + 1) A.length = some (A ++ x :: y :: B) := by
  induction A with
  | nil => simp [Events.Swap]
  | cons a A ih =>
    simp only [Events.Swap, List.cons_append, List.length_cons, List.getElem?_cons_succ,
      List.set_cons_succ] at ih ⊢
    split at ih
    · rename_i u v hu hv
      simp only [hu, hv]
      simp only [Option.some.injEq] at ih
      rw [ih]
    · simp at ih

theorem insertRev_length (x : Event) (rp : List Event) :
    (insertRev x rp).length = rp.length + 1 := by
  induction rp with
  | nil => rfl
  | cons y rp ih =>
    unfold insertRev
    split <;> simp [ih]

/-- The inner loop carries the event at index `j` to its place in the sorted part. -/
theorem insertLoop_eq (rp : List Event) : ∀ (x : Event) (post : List Event),
    insertLoop rp.length (rp.reverse ++ x :: post) =
      some ((insertRev x rp).reverse ++ post) := by
  induction rp with
  | nil => intro x post; rfl
  | cons y rp ih =>
    intro x post
    have hes : (y :: rp).reverse ++ x :: post = rp.reverse ++ y :: x :: post := by simp
    have hlen : (y :: rp).length = rp.reverse.length + 1 := by simp
    rw [hes, hlen, insertLoop, Less_adjacent]
    by_cases hlt : x.Time < y.Time
    · simp only [hlt, decide_True, Swap_adjacent]
      rw [List.length_reverse, ih x (y :: post)]
      simp [insertRev, hlt]
    · simp [hlt, insertRev]

theorem insertionLoop_eq (rest : List Event) : ∀ rp : List Event,
    insertionLoop rest.length rp.length (rp.reverse ++ rest) =
      some ((rest.foldl (fun rp x => insertRev x rp) rp).reverse) := by
  induction rest with
  | nil => intro rp; simp [insertionLoop]
  | cons x rest ih =>
    intro rp
    simp only [List.length_cons, insertionLoop, insertLoop_eq, List.foldl_cons]
    rw [← insertRev_length x rp]
    exact ih (insertRev x rp)

theorem Stable_eq (es : Events) : Stable es = some (sortedOf es) := by
  cases es with
  | nil => rfl
  | cons a rest =>
    have h := insertionLoop_eq rest [a]
    simp only [List.length_singleton, List.reverse_singleton, List.singleton_append] at h
    simp only [Stable, insertionSort, Events.Len, List.length_cons, Int.toNat_ofNat,
      Nat.add_sub_cancel, sortedOf, List.foldl_cons, insertRev]
    exact h

theorem insertRev_perm (x : Event) (rp : List Event) : (insertRev x rp).Perm (x :: rp) := by
  induction rp with
  | nil => exact List.Perm.refl _
  | cons y rp ih =>
    unfold insertRev
    split
    · exact (List.Perm.cons y ih).trans (List.Perm.swap x y rp)
    · exact List.Perm.refl _

theorem insertRev_descending (x : Event) (rp : List Event)
    (h : rp.Pairwise fun a b => b.Time ≤ a.Time) :
    (insertRev x rp).Pairwise fun a b => b.Time ≤ a.Time := by
  induction rp with
  | nil => simp [insertRev]
  | cons y rp ih =>
    rw [List.pairwise_cons] at h
    unfold insertRev
    split
    · rename_i hlt
      rw [List.pairwise_cons]
      refine ⟨?_, ih h.2⟩
      intro b hb
      have hb1 := (List.Perm.mem_iff (insertRev_perm x rp)).mp hb
      rcases List.mem_cons.mp hb1 with rfl | hb2
      · omega
      · exact h.1 b hb2
    · rename_i hge
      rw [List.pairwise_cons]
      refine ⟨?_, List.pairwise_cons.mpr h⟩
      intro b hb
      rcases List.mem_cons.mp hb with rfl | hb
      · omega
      · have := h.1 b hb
        omega

theorem atTime_append (t : Int) (a b : Events) :
    atTime t (a ++ b) = atTime t a ++ atTime t b := by
  simp [atTime]

theorem atTime_insertRev (t : Int) (x : Event) (rp : List Event) :
    atTime t (insertRev x rp).reverse = atTime t (rp.reverse ++ [x]) := by
  induction rp with
  | nil => rfl
  | cons y rp ih =>
    unfold insertRev
    split
    · rename_i hlt
      rw [List.reverse_cons, atTime_append, ih, List.reverse_cons, atTime_append,
        atTime_append, atTime_append, List.append_assoc, List.append_assoc]
      congr 1
      by_cases hx : x.Time = t
      · have hy : ¬ y.Time = t := by omega
        simp [atTime, hx, hy]
      · simp [atTime, hx]
    · simp

theorem sortedOf_aux (rest : List Event) : ∀ rp : List Event,
    (rp.Pairwise fun a b => b.Time ≤ a.Time) →
    ((rest.foldl (fun rp x => insertRev x rp) rp).Pairwise fun a b => b.Time ≤ a.Time) ∧
    (rest.foldl (fun rp x => insertRev x rp) rp).Perm (rest.reverse ++ rp) ∧
    ∀ t, atTime t (rest.foldl (fun rp x => insertRev x rp) rp).reverse =
      atTime t (rp.reverse ++ rest) := by
  induction rest with
  | nil => intro rp h; simp [h]
  | cons x rest ih =>
    intro rp h
    obtain ⟨h1, h2, h3⟩ := ih (insertRev x rp) (insertRev_descending x rp h)
    refine ⟨h1, ?_, ?_⟩
    · simp only [List.foldl_cons, List.reverse_cons, List.append_assoc, List.singleton_append]
      exact h2.trans (List.Perm.append_left _ (insertRev_perm x rp))
    · intro t
      simp only [List.foldl_cons]
      have hx : x :: rest = [x] ++ rest := rfl
      rw [h3 t, atTime_append, atTime_insertRev, atTime_append, atTime_append, hx,
        atTime_append, List.append_assoc]

/-- The result of the insertion sort: ascending, a permutation, and stable. -/
theorem sortedOf_spec (es : Events) :
    ascending (sortedOf es) ∧ (sortedOf es).Perm es ∧
      ∀ t, atTime t (sortedOf es) = atTime t es := by
  obtain ⟨h1, h2, h3⟩ := sortedOf_aux es [] List.Pairwise.nil
  refine ⟨?_, ?_, ?_⟩
  · unfold ascending sortedOf
    rw [List.pairwise_reverse]
    exact h1
  · unfold sortedOf
    refine (List.reverse_perm _).trans (h2.trans ?_)
    simp
  · intro t
    simpa [sortedOf] using h3 t

theorem atTime_mem (t : Int) (e : Event) (es : Events) :
    e ∈ atTime t es ↔ e ∈ es ∧ e.Time = t := by
  simp [atTime]

/-- Two ascending collections with the same events at every time, in the same order, are
the same collection. -/
theorem ascending_stable_unique (l1 : Events) : ∀ l2 : Events,
    ascending l1 → ascending l2 → (∀ t, atTime t l1 = atTime t l2) → l1 = l2 := by
  induction l1 with
  | nil =>
    intro l2 _ _ h
    cases l2 with
    | nil => rfl
    | cons b l2 =>
      have := h b.Time
      simp [atTime] at this
  | cons a l1 ih =>
    intro l2 h1 h2 h
    cases l2 with
    | nil =>
      have := h a.Time
      simp [atTime] at this
    | cons b l2 =>
      unfold ascending at h1 h2
      rw [List.pairwise_cons] at h1 h2
      have hb : b ∈ a :: l1 := by
        have : b ∈ atTime b.Time (b :: l2) := (atTime_mem _ _ _).mpr ⟨by simp, rfl⟩
        rw [← h b.Time] at this
        exact ((atTime_mem _ _ _).mp this).1
      have ha : a ∈ b :: l2 := by
        have : a ∈ atTime a.Time (a :: l1) := (atTime_mem _ _ _).mpr ⟨by simp, rfl⟩
        rw [h a.Time] at this
        exact ((atTime_mem _ _ _).mp this).1
      have hab : a.Time ≤ b.Time := by
        rcases List.mem_cons.mp hb with rfl | hb
        · exact le_refl _
        · exact h1.1 b hb
      have hba : b.Time ≤ a.Time := by
        rcases List.mem_cons.mp ha with rfl | ha
        · exact le_refl _
        · exact h2.1 a ha
      have heq : a.Time = b.Time := le_antisymm hab hba
      have hhead := h a.Time
      simp only [atTime, List.filter_cons, heq, decide_True, if_true, List.cons.injEq] at hhead
      have hab' : a = b := hhead.1
      subst hab'
      congr 1
      apply ih l2 h1.2 h2.2
      intro t
      have ht := h t
      simp only [atTime, List.filter_cons] at ht ⊢
      split at ht
      · simpa using ht
      · exact ht


/-- C11: the stable sort driven by `Len`, `Less` and `Swap` does not panic and returns a
permutation of the collection that is in ascending order of `Time` and in which the events
of any one `Time` are in their original order; this arrangement is the only one that is
ascending and keeps the events of each `Time` in order, so every stable sort returns it.
`[{2000ms,1},{1000ms,2}]` becomes `[{1000ms,2},{2000ms,1}]`. -/
theorem C11_canonical_stable_sort :
    (∀ es : Events, ∃ out, Stable es = some out ∧ out.Perm es ∧ ascending out ∧
      (∀ t, atTime t out = atTime t es) ∧
      ∀ out1, ascending out1 → (∀ t, atTime t out1 = atTime t es) → out1 = out) ∧
    Stable [{ Time := 2000 * Millisecond, Value := 1 }, { Time := 1000 * Millisecond, Value := 2 }] =
      some [{ Time := 1000 * Millisecond, Value := 2 }, { Time := 2000 * Millisecond, Value := 1 }] ∧
    Stable [{ Time := 5, Value := 1 }, { Time := 3, Value := 0 }, { Time := 5, Value := 2 },
        { Time := 3, Value := 4 }] =
      some [{ Time := 3, Value := 0 }, { Time := 3, Value := 4 }, { Time := 5, Value := 1 },
        { Time := 5, Value := 2 }] := by
  refine ⟨fun es => ?_, by decide, by decide⟩
  obtain ⟨h1, h2, h3⟩ := sortedOf_spec es
  refine ⟨sortedOf es, Stable_eq es, h2, h1, h3, ?_⟩
  intro out1 ha ht
  exact ascending_stable_unique out1 (sortedOf es) ha h1 (fun t => (ht t).trans (h3 t).symm)

/-- Witness of C11: on `[{2000ms,1},{1000ms,2}]` the sort returns the only ascending
arrangement, `[{1000ms,2},{2000ms,1}]`. -/
theorem C11_canonical_stable_sort_witness :
    ∃ out, Stable [{ Time := 2000, Value := 1 }, { Time := 1000, Value := 2 }] = some out ∧
      out = [{ Time := 1000, Value := 2 }, { Time := 2000, Value := 1 }] := by
  obtain ⟨out, h1, _, _, _, huniq⟩ := C11_canonical_stable_sort.1
    [{ Time := 2000, Value := 1 }, { Time := 1000, Value := 2 }]
  refine ⟨out, h1, (huniq _ ?_ ?_).symm⟩
  · unfold ascending
    decide
  · intro t
    by_cases h1 : (1000 : Int) = t
    · have h2 : ¬ (2000 : Int) = t := by omega
      simp [atTime, h1, h2]
    · by_cases h2 : (2000 : Int) = t <;> simp [atTime, h1, h2]


/-! ## Lemmas: `TrimSpace` and white space around a text -/

/-- The encodings of the white-space runes. -/
theorem isSpaceRune_cases (r : Text) (h : isSpaceRune r) :
    (∃ c, r = [c] ∧ (c = 9 ∨ c = 10 ∨ c = 11 ∨ c = 12 ∨ c = 13 ∨ c = 32)) ∨
    (∃ d, r = [0xC2, d] ∧ (d = 0x85 ∨ d = 0xA0)) ∨
    (∃ c d1 d2, r = [c, d1, d2] ∧
      ((c = 0xE1 ∧ d1 = 0x9A ∧ d2 = 0x80) ∨
       (c = 0xE2 ∧ d1 = 0x80 ∧ ((0x80 ≤ d2 ∧ d2 ≤ 0x8A) ∨ d2 = 0xA8 ∨ d2 = 0xA9 ∨ d2 = 0xAF)) ∨
       (c = 0xE2 ∧ d1 = 0x81 ∧ d2 = 0x9F) ∨
       (c = 0xE3 ∧ d1 = 0x80 ∧ d2 = 0x80))) := by
  obtain ⟨hne, hlen⟩ := h
  rcases r with _ | ⟨c, _ | ⟨d1, _ | ⟨d2, _ | ⟨d3, r⟩⟩⟩⟩
  · exact absurd rfl hne
  · left
    refine ⟨c, rfl, ?_⟩
    simp only [spaceLen, List.length_singleton] at hlen
    split at hlen
    · assumption
    · repeat' split at hlen
      all_goals omega
  · right; left
    simp only [spaceLen, List.length_cons, List.length_nil] at hlen
    repeat' split at hlen
    all_goals first
      | omega
      | (rename_i hc hd; subst hc; exact ⟨d1, rfl, hd⟩)
  · right; right
    refine ⟨c, d1, d2, rfl, ?_⟩
    simp only [spaceLen, List.length_cons, List.length_nil] at hlen
    repeat' split at hlen
    all_goals omega
  · exfalso
    simp only [spaceLen, List.length_cons] at hlen
    repeat' split at hlen
    all_goals omega

theorem spaceLen_rune_append (r rest : Text) (h : isSpaceRune r) :
    spaceLen (r ++ rest) = r.length := by
  rcases isSpaceRune_cases r h with ⟨c, rfl, hc⟩ | ⟨d, rfl, hd⟩ | ⟨c, d1, d2, rfl, hc⟩
  · simp [spaceLen, hc]
  · rcases hd with rfl | rfl <;> simp [spaceLen]
  · rcases hc with ⟨rfl, rfl, rfl⟩ | ⟨rfl, rfl, hd⟩ | ⟨rfl, rfl, rfl⟩ | ⟨rfl, rfl, rfl⟩
    · simp [spaceLen]
    · simp [spaceLen, hd]
    · simp [spaceLen]
    · simp [spaceLen]

theorem spaceLenRev_rune_append (r rest : Text) (h : isSpaceRune r) :
    spaceLenRev (r.reverse ++ rest) = r.length := by
  rcases isSpaceRune_cases r h with ⟨c, rfl, hc⟩ | ⟨d, rfl, hd⟩ | ⟨c, d1, d2, rfl, hc⟩
  · simp [spaceLenRev, hc]
  · rcases hd with rfl | rfl <;> simp [spaceLenRev]
  · rcases hc with ⟨rfl, rfl, rfl⟩ | ⟨rfl, rfl, hd⟩ | ⟨rfl, rfl, rfl⟩ | ⟨rfl, rfl, rfl⟩
    · simp [spaceLenRev]
    · have h1 : ¬ (d2 = 9 ∨ d2 = 10 ∨ d2 = 11 ∨ d2 = 12 ∨ d2 = 13 ∨ d2 = 32) := by omega
      simp [spaceLenRev, h1, hd]
    · simp [spaceLenRev]
    · simp [spaceLenRev]

theorem trimWith_nil (len : Text → Nat) (fuel : Nat) : trimWith len fuel [] = [] := by
  induction fuel with
  | zero => rfl
  | succ f ih =>
    simp only [trimWith, List.drop_nil]
    split
    · rfl
    · exact ih

/-- Fuel beyond the length of the text does not change the result. -/
theorem trimWith_fuel (len : Text → Nat) : ∀ (fuel : Nat) (s : Text) (fuel2 : Nat),
    s.length ≤ fuel → s.length ≤ fuel2 → trimWith len fuel s = trimWith len fuel2 s := by
  intro fuel
  induction fuel with
  | zero =>
    intro s fuel2 h _
    have hs : s = [] := List.length_eq_zero.mp (by omega)
    subst hs
    rw [trimWith_nil, trimWith_nil]
  | succ f ih =>
    intro s fuel2 h1 h2
    cases fuel2 with
    | zero =>
      have hs : s = [] := List.length_eq_zero.mp (by omega)
      subst hs
      rw [trimWith_nil, trimWith_nil]
    | succ g =>
      simp only [trimWith]
      split
      · rfl
      · apply ih
        · simp only [List.length_drop]; omega
        · simp only [List.length_drop]; omega

theorem TrimLeft_rune_append (r s : Text) (h : isSpaceRune r) :
    TrimLeft (r ++ s) = TrimLeft s := by
  have hlen : (r ++ s).length = (r.length - 1 + s.length) + 1 := by
    have := List.length_pos.mpr h.1
    simp only [List.length_append]
    omega
  have hne : ¬ spaceLen (r ++ s) = 0 := by
    rw [spaceLen_rune_append r s h]
    have := List.length_pos.mpr h.1
    omega
  unfold TrimLeft
  rw [hlen, trimWith, if_neg hne, spaceLen_rune_append r s h, List.drop_left]
  exact trimWith_fuel _ _ _ _ (by omega) (le_refl _)

theorem TrimRight_append_rune (s r : Text) (h : isSpaceRune r) :
    TrimRight (s ++ r) = TrimRight s := by
  have hrev : (s ++ r).reverse = r.reverse ++ s.reverse := List.reverse_append _ _
  have hlen : (s ++ r).length = (r.length - 1 + s.length) + 1 := by
    have := List.length_pos.mpr h.1
    simp only [List.length_append]
    omega
  have hne : ¬ spaceLenRev (r.reverse ++ s.reverse) = 0 := by
    rw [spaceLenRev_rune_append r _ h]
    have := List.length_pos.mpr h.1
    omega
  have hdrop : List.drop r.length (r.reverse ++ s.reverse) = s.reverse := by
    rw [← List.length_reverse r, List.drop_left]
  unfold TrimRight
  rw [hrev, hlen, trimWith, if_neg hne, spaceLenRev_rune_append r _ h, hdrop]
  rw [trimWith_fuel _ _ _ s.length (by simp) (by simp)]

theorem TrimLeft_space_append (w s : Text) (h : WhiteSpace w) :
    TrimLeft (w ++ s) = TrimLeft s := by
  obtain ⟨rs, hrs, rfl⟩ := h
  induction rs with
  | nil => rfl
  | cons r rs ih =>
    simp only [List.flatten_cons, List.append_assoc]
    rw [TrimLeft_rune_append _ _ (hrs r (by simp))]
    exact ih (fun x hx => hrs x (by simp [hx]))

theorem TrimRight_append_space (s w : Text) (h : WhiteSpace w) :
    TrimRight (s ++ w) = TrimRight s := by
  obtain ⟨rs, hrs, rfl⟩ := h
  induction rs using List.reverseRecOn with
  | nil => simp
  | append_singleton rs r ih =>
    simp only [List.flatten_append, List.flatten_cons, List.flatten_nil, List.append_nil]
    rw [← List.append_assoc, TrimRight_append_rune _ _ (hrs r (by simp))]
    exact ih (fun x hx => hrs x (by simp [hx]))


theorem isSpaceRune_take (s : Text) (h : spaceLen s ≠ 0) :
    isSpaceRune (s.take (spaceLen s)) := by
  rcases s with _ | ⟨c, _ | ⟨d1, _ | ⟨d2, rest⟩⟩⟩
  · simp [spaceLen] at h
  · simp only [spaceLen] at h ⊢
    split at h
    · rename_i hc
      simp [isSpaceRune, spaceLen, hc]
    · repeat' split at h
      all_goals omega
  · simp only [spaceLen] at h ⊢
    repeat' split at h
    all_goals first
      | omega
      | simp_all [isSpaceRune, spaceLen]
  · simp only [spaceLen] at h ⊢
    repeat' split at h
    all_goals first
      | omega
      | simp_all [isSpaceRune, spaceLen]

theorem WhiteSpace_nil : WhiteSpace [] := ⟨[], by simp, rfl⟩

theorem WhiteSpace_cons (r w : Text) (hr : isSpaceRune r) (hw : WhiteSpace w) :
    WhiteSpace (r ++ w) := by
  obtain ⟨rs, hrs, rfl⟩ := hw
  refine ⟨r :: rs, ?_, by simp⟩
  intro x hx
  rcases List.mem_cons.mp hx with rfl | hx
  · exact hr
  · exact hrs x hx

/-- What `trimWith spaceLen` removes is white space, and what it leaves does not start
with white space. -/
theorem trimLeft_decomp : ∀ (fuel : Nat) (s : Text), s.length ≤ fuel →
    ∃ p, WhiteSpace p ∧ s = p ++ trimWith spaceLen fuel s ∧
      spaceLen (trimWith spaceLen fuel s) = 0 := by
  intro fuel
  induction fuel with
  | zero =>
    intro s h
    have hs : s = [] := List.length_eq_zero.mp (by omega)
    subst hs
    exact ⟨[], WhiteSpace_nil, rfl, rfl⟩
  | succ f ih =>
    intro s h
    by_cases h0 : spaceLen s = 0
    · exact ⟨[], WhiteSpace_nil, by simp [trimWith, h0], by simp [trimWith, h0]⟩
    · have hr := isSpaceRune_take s h0
      have hlen : (s.drop (spaceLen s)).length ≤ f := by
        simp only [List.length_drop]
        omega
      obtain ⟨p, hp, hs, hz⟩ := ih _ hlen
      refine ⟨s.take (spaceLen s) ++ p, WhiteSpace_cons _ _ hr hp, ?_, ?_⟩
      · simp only [trimWith, h0, if_false, List.append_assoc]
        rw [← hs, List.take_append_drop]
      · simp only [trimWith, h0, if_false]
        exact hz

/-- White space after a text that does not start with white space does not make it start
with white space. -/
theorem spaceLen_append_space (t w : Text) (hne : t ≠ []) (h0 : spaceLen t = 0)
    (hw : WhiteSpace w) : spaceLen (t ++ w) = 0 := by
  obtain ⟨rs, hrs, rfl⟩ := hw
  cases rs with
  | nil => simpa using h0
  | cons r rs =>
    have hr := hrs r (by simp)
    have hlead : ∃ c0 r1, r = c0 :: r1 ∧
        (c0 = 9 ∨ c0 = 10 ∨ c0 = 11 ∨ c0 = 12 ∨ c0 = 13 ∨ c0 = 32 ∨ c0 = 0xC2 ∨ c0 = 0xE1 ∨
          c0 = 0xE2 ∨ c0 = 0xE3) := by
      rcases isSpaceRune_cases r hr with ⟨c, rfl, hc⟩ | ⟨d, rfl, _⟩ | ⟨c, d1, d2, rfl, hc⟩
      · exact ⟨c, [], rfl, by omega⟩
      · exact ⟨0xC2, [d], rfl, by omega⟩
      · exact ⟨c, [d1, d2], rfl, by omega⟩
    obtain ⟨c0, r1, rfl, hc0⟩ := hlead
    simp only [List.flatten_cons, List.cons_append]
    generalize r1 ++ rs.flatten = rest
    rcases t with _ | ⟨a, _ | ⟨b, _ | ⟨c, t2⟩⟩⟩
    · exact absurd rfl hne
    · simp only [spaceLen] at h0
      cases rest <;>
      · simp only [List.cons_append, List.nil_append, spaceLen]
        repeat' split
        all_goals first
          | rfl
          | omega
          | (repeat' split at h0
             all_goals omega)
    · simp only [spaceLen] at h0
      simp only [List.cons_append, List.nil_append, spaceLen]
      repeat' split
      all_goals first
        | rfl
        | omega
        | (repeat' split at h0
           all_goals omega)
    · simp only [spaceLen] at h0
      simp only [List.cons_append, spaceLen]
      exact h0


/-- White space before and after a text is trimmed away with the white space of the text
itself. -/
theorem TrimSpace_space_around (w1 t w2 : Text) (h1 : WhiteSpace w1) (h2 : WhiteSpace w2) :
    TrimSpace (w1 ++ t ++ w2) = TrimSpace t := by
  unfold TrimSpace
  rw [List.append_assoc, TrimLeft_space_append w1 _ h1]
  obtain ⟨p, hp, ht, hz⟩ := trimLeft_decomp t.length t (le_refl _)
  have hT : TrimLeft t = trimWith spaceLen t.length t := rfl
  rw [← hT] at ht hz
  have hL : TrimLeft (t ++ w2) = TrimLeft (TrimLeft t ++ w2) := by
    conv_lhs => rw [ht, List.append_assoc]
    exact TrimLeft_space_append p _ hp
  rw [hL]
  by_cases hnil : TrimLeft t = []
  · rw [hnil, List.nil_append]
    have : TrimLeft w2 = [] := by
      have := TrimLeft_space_append w2 [] h2
      rw [List.append_nil] at this
      rw [this]
      rfl
    rw [this]
  · have hz2 := spaceLen_append_space (TrimLeft t) w2 hnil hz h2
    have : TrimLeft (TrimLeft t ++ w2) = TrimLeft t ++ w2 := trimWith_zero _ _ _ hz2
    rw [this, TrimRight_append_space _ _ h2]

/-- C16: white space before and after the text does not change the outcome of
`Events.UnmarshalText`: the same collection, the same error or the same panic. -/
theorem C16_outer_white_space (es : Events) (t w1 w2 : Text)
    (h1 : WhiteSpace w1) (h2 : WhiteSpace w2) :
    Events.UnmarshalText es (w1 ++ t ++ w2) = Events.UnmarshalText es t := by
  unfold Events.UnmarshalText
  rw [TrimSpace_space_around w1 t w2 h1 h2]

/-- Witness of C16: a space and a tab before `{0.00:1}` and a line feed and a no-break
space (bytes `C2 A0`) after it. -/
theorem C16_outer_white_space_witness :
    WhiteSpace [32, 9] ∧ WhiteSpace [10, 0xC2, 0xA0] ∧
    Events.UnmarshalText [] ([32, 9] ++ bytes "{0.00:1}" ++ [10, 0xC2, 0xA0]) =
      Events.UnmarshalText [] (bytes "{0.00:1}") := by
  have h1 : WhiteSpace [32, 9] :=
    ⟨[[32], [9]], by
      intro r hr
      simp only [List.mem_cons, List.mem_singleton, List.not_mem_nil, or_false] at hr
      rcases hr with rfl | rfl <;> simp [isSpaceRune, spaceLen], rfl⟩
  have h2 : WhiteSpace [10, 0xC2, 0xA0] :=
    ⟨[[10], [0xC2, 0xA0]], by
      intro r hr
      simp only [List.mem_cons, List.mem_singleton, List.not_mem_nil, or_false] at hr
      rcases hr with rfl | rfl <;> simp [isSpaceRune, spaceLen], rfl⟩
  exact ⟨h1, h2, C16_outer_white_space [] (bytes "{0.00:1}") [32, 9] [10, 0xC2, 0xA0] h1 h2⟩


/-! ## Lemmas: the error of a rounding -/

/-- The rounding step is to nearest: twice the distance from `q1 * d` to `x` is at most
`d`. -/
theorem nearest_step (x d : Nat) (hd : 0 < d) :
    2 * ((if d < 2 * (x % d) ∨ (2 * (x % d) = d ∧ x / d % 2 = 1) then x / d + 1 else x / d) * d)
        ≤ 2 * x + d ∧
    2 * x ≤ 2 * ((if d < 2 * (x % d) ∨ (2 * (x % d) = d ∧ x / d % 2 = 1) then x / d + 1
        else x / d) * d) + d := by
  have h1 : d * (x / d) + x % d = x := Nat.div_add_mod x d
  have h2 : x % d < d := Nat.mod_lt x hd
  have h3 : x / d * d = d * (x / d) := Nat.mul_comm _ _
  have h4 : (x / d + 1) * d = d * (x / d) + d := by rw [Nat.add_mul, Nat.one_mul, h3]
  by_cases hc : d < 2 * (x % d) ∨ (2 * (x % d) = d ∧ x / d % 2 = 1)
  · rw [if_pos hc, h4]
    constructor <;> omega
  · rw [if_neg hc, h3]
    constructor <;> omega

/-- The unit of the rounding is at most `2^-52` of the rounded number, or the smallest
unit. -/
theorem round_unit_le (x : Nat) :
    4503599627370496 * 2 ^ (ilog2 x x + 1 - 53) ≤ x + 4503599627370496 := by
  by_cases hs : ilog2 x x + 1 - 53 = 0
  · rw [hs]
    omega
  · have hx : 1 ≤ x := by
      by_contra h0
      have h0' : x = 0 := by omega
      rw [h0'] at hs
      exact hs (by decide)
    have h1 := two_pow_ilog2_le x x hx
    have h2 : ilog2 x x = (ilog2 x x + 1 - 53) + 52 := by omega
    have h3 : (2 : Nat) ^ ilog2 x x = 2 ^ (ilog2 x x + 1 - 53) * 4503599627370496 := by
      conv_lhs => rw [h2, pow_add]
      norm_num
    rw [h3] at h1
    omega

/-- The error of `roundMag`: with `x = num * unit` the exact numerator, the result `K`
satisfies `2^53 * |K * den - x| ≤ x + 2^52 * den`. -/
theorem roundMag_err (num den : Nat) (hden : 0 < den) :
    9007199254740992 * (F64.roundMag num den * den) ≤
        9007199254740992 * (num * F64.unit) + num * F64.unit + 4503599627370496 * den ∧
    9007199254740992 * (num * F64.unit) ≤
        9007199254740992 * (F64.roundMag num den * den) + num * F64.unit +
          4503599627370496 * den := by
  simp only [F64.roundMag]
  generalize hx : num * F64.unit = x
  generalize hs : ilog2 (x / den) (x / den) + 1 - 53 = s
  have hd : 0 < den * 2 ^ s := Nat.mul_pos hden (by positivity)
  obtain ⟨n1, n2⟩ := nearest_step x (den * 2 ^ s) hd
  generalize hq : (if den * 2 ^ s < 2 * (x % (den * 2 ^ s)) ∨
      (2 * (x % (den * 2 ^ s)) = den * 2 ^ s ∧ x / (den * 2 ^ s) % 2 = 1)
      then x / (den * 2 ^ s) + 1 else x / (den * 2 ^ s)) = q1 at n1 n2 ⊢
  have hu := round_unit_le (x / den)
  rw [hs] at hu
  have hxd : den * (x / den) ≤ x := Nat.mul_div_le x den
  have e1 : q1 * 2 ^ s * den = q1 * (den * 2 ^ s) := by ring
  have hu2 : 4503599627370496 * (den * 2 ^ s) ≤ x + 4503599627370496 * den := by
    have := Nat.mul_le_mul_left den hu
    calc 4503599627370496 * (den * 2 ^ s) = den * (4503599627370496 * 2 ^ s) := by ring
      _ ≤ den * (x / den + 4503599627370496) := this
      _ = den * (x / den) + 4503599627370496 * den := by ring
      _ ≤ x + 4503599627370496 * den := by omega
  rw [e1]
  constructor <;> omega


theorem two_pow_mono (a b : Nat) (h : a ≤ b) : (2 : Nat) ^ a ≤ 2 ^ b :=
  Nat.pow_le_pow_right (by decide) h

theorem unit_ge : 18446744073709551616 ≤ F64.unit := by
  have e : (18446744073709551616 : Nat) = 2 ^ 64 := by norm_num
  rw [e, F64.unit]
  exact two_pow_mono 64 1074 (by decide)

theorem maxMag_ge : 1329227995784915872903807060280344576 * F64.unit ≤ F64.maxMag := by
  have e : (1329227995784915872903807060280344576 : Nat) = 2 ^ 120 := by norm_num
  unfold F64.maxMag
  apply Nat.mul_le_mul_right
  rw [e]
  exact le_trans (two_pow_mono 120 971 (by decide)) (Nat.le_mul_of_pos_left _ (by decide))

/-- Scaling numerator and denominator does not change the rounding. -/
theorem roundMag_scale (a b c : Nat) (hc : 0 < c) :
    F64.roundMag (a * c) (b * c) = F64.roundMag a b := by
  have e1 : a * c * F64.unit = a * F64.unit * c := Nat.mul_right_comm _ _ _
  have e2 : a * F64.unit * c / (b * c) = a * F64.unit / b := Nat.mul_div_mul_right _ _ hc
  simp only [F64.roundMag, e1, e2]
  generalize ilog2 (a * F64.unit / b) (a * F64.unit / b) + 1 - 53 = s
  have e3 : b * c * 2 ^ s = b * 2 ^ s * c := Nat.mul_right_comm _ _ _
  have e4 : a * F64.unit * c / (b * 2 ^ s * c) = a * F64.unit / (b * 2 ^ s) :=
    Nat.mul_div_mul_right _ _ hc
  have e5 : a * F64.unit * c % (b * 2 ^ s * c) = a * F64.unit % (b * 2 ^ s) * c :=
    Nat.mul_mod_mul_right _ _ _
  rw [e3, e4, e5]
  have c1 : (b * 2 ^ s * c < 2 * (a * F64.unit % (b * 2 ^ s) * c)) ↔
      (b * 2 ^ s < 2 * (a * F64.unit % (b * 2 ^ s))) := by
    rw [← Nat.mul_assoc]
    exact Nat.mul_lt_mul_right hc
  have c2 : (2 * (a * F64.unit % (b * 2 ^ s) * c) = b * 2 ^ s * c) ↔
      (2 * (a * F64.unit % (b * 2 ^ s)) = b * 2 ^ s) := by
    rw [← Nat.mul_assoc]
    exact Nat.mul_left_inj (Nat.pos_iff_ne_zero.mp hc)
  simp only [c1, c2]

/-- A number of at most `2^64` is rounded to a finite `float64`. -/
theorem round_fin (num den M : Nat) (hden : 0 < den) (h : num ≤ M * den)
    (hM : M ≤ 18446744073709551616) :
    F64.round false num den = .fin ((F64.roundMag num den : Nat) : Int) := by
  obtain ⟨e1, _⟩ := roundMag_err num den hden
  have hU := unit_ge
  have hmax := maxMag_ge
  have h1 : num * F64.unit ≤ M * den * F64.unit := Nat.mul_le_mul_right _ h
  have h2 : M * den * F64.unit ≤ 18446744073709551616 * den * F64.unit :=
    Nat.mul_le_mul_right _ (Nat.mul_le_mul_right _ hM)
  have h3 : 4503599627370496 * den ≤ den * F64.unit := by
    rw [Nat.mul_comm]
    exact Nat.mul_le_mul_left _ (by omega)
  have h4 : F64.roundMag num den * den ≤ 36893488147419103233 * F64.unit * den := by
    have e2 : (18446744073709551616 * den * F64.unit : Nat) =
        18446744073709551616 * (den * F64.unit) := Nat.mul_assoc _ _ _
    have e3 : (36893488147419103233 * F64.unit * den : Nat) =
        36893488147419103233 * (den * F64.unit) := by
      rw [Nat.mul_assoc, Nat.mul_comm F64.unit den]
    rw [e3]
    rw [e2] at h2
    omega
  have h5 : F64.roundMag num den ≤ 36893488147419103233 * F64.unit :=
    Nat.le_of_mul_le_mul_right h4 hden
  have hnot : ¬ (F64.maxMag < F64.roundMag num den) := by omega
  simp only [F64.round, hnot, if_false, Bool.false_eq_true]


/-! ## Lemmas: the error of `Duration.Seconds` and of `%.2f` -/

theorem roundMag_err_unit (a : Nat) :
    9007199254740992 * F64.roundMag a F64.unit ≤
        9007199254740992 * a + a + 4503599627370496 ∧
    9007199254740992 * a ≤
        9007199254740992 * F64.roundMag a F64.unit + a + 4503599627370496 := by
  obtain ⟨e1, e2⟩ := roundMag_err a F64.unit unit_pos
  constructor
  · apply Nat.le_of_mul_le_mul_right _ unit_pos
    calc 9007199254740992 * F64.roundMag a F64.unit * F64.unit
        = 9007199254740992 * (F64.roundMag a F64.unit * F64.unit) := Nat.mul_assoc _ _ _
      _ ≤ 9007199254740992 * (a * F64.unit) + a * F64.unit + 4503599627370496 * F64.unit := e1
      _ = (9007199254740992 * a + a + 4503599627370496) * F64.unit := by ring
  · apply Nat.le_of_mul_le_mul_right _ unit_pos
    calc 9007199254740992 * a * F64.unit
        = 9007199254740992 * (a * F64.unit) := Nat.mul_assoc _ _ _
      _ ≤ 9007199254740992 * (F64.roundMag a F64.unit * F64.unit) + a * F64.unit +
          4503599627370496 * F64.unit := e2
      _ = (9007199254740992 * F64.roundMag a F64.unit + a + 4503599627370496) * F64.unit := by
        ring

theorem fmtFixed2_nat (k : Nat) :
    fmtFixed2 (.fin (k : Int)) =
      fmtNat (hundredths k / 100) ++
        [46, 48 + hundredths k % 100 / 10, 48 + hundredths k % 10] := by
  have hneg : ¬ ((k : Int) < 0) := by omega
  simp only [fmtFixed2, Int.natAbs_ofNat, hneg, if_false, List.nil_append, hundredths]

theorem hundredths_err (k : Nat) :
    2 * (hundredths k * F64.unit) ≤ 200 * k + F64.unit ∧
    200 * k ≤ 2 * (hundredths k * F64.unit) + F64.unit := by
  obtain ⟨h1, h2⟩ := nearest_step (k * 100) F64.unit unit_pos
  unfold hundredths
  constructor <;> omega

/-- `Duration.Seconds` of a non-negative duration is a finite non-negative `float64`
within 1025 ns of the duration. -/
theorem Seconds_err (T : Nat) (hT : T ≤ 9223372036854775807) :
    ∃ K : Nat, Seconds (T : Int) = .fin (K : Int) ∧
      1000000000 * K ≤ T * F64.unit + 1025 * F64.unit ∧
      T * F64.unit ≤ 1000000000 * K + 1025 * F64.unit := by
  have hU := unit_ge
  have hsec : T / 1000000000 < 2 ^ 53 := by
    have : (2 : Nat) ^ 53 = 9007199254740992 := by norm_num
    omega
  have hns : T % 1000000000 < 2 ^ 53 := by
    have : (2 : Nat) ^ 53 = 9007199254740992 := by norm_num
    omega
  have c9 : (1000000000 : Int) = ((1000000000 : Nat) : Int) := rfl
  have h1 : Int.tdiv (T : Int) 1000000000 = ((T / 1000000000 : Nat) : Int) := by
    rw [c9, ← Int.ofNat_tdiv]
  have h2 : Int.tmod (T : Int) 1000000000 = ((T % 1000000000 : Nat) : Int) := by
    rw [c9, ← Int.ofNat_tmod]
  have h4 : F64.ofInt 1000000000 = .fin ((1000000000 * F64.unit : Nat) : Int) :=
    ofInt_exact 1000000000 (by norm_num)
  have hb : ((1000000000 * F64.unit : Nat) : Int) ≠ 0 := by
    have : 0 < 1000000000 * F64.unit := Nat.mul_pos (by norm_num) unit_pos
    omega
  -- the quotient
  have hq1 : T % 1000000000 * F64.unit ≤ 1 * (1000000000 * F64.unit) := by
    rw [Nat.one_mul]
    exact Nat.mul_le_mul_right _ (by omega)
  have hq := round_fin (T % 1000000000 * F64.unit) (1000000000 * F64.unit) 1
    (Nat.mul_pos (by norm_num) unit_pos) hq1 (by norm_num)
  rw [roundMag_scale _ _ _ unit_pos] at hq
  obtain ⟨q1, q2⟩ := roundMag_err (T % 1000000000) 1000000000 (by norm_num)
  generalize hKq : F64.roundMag (T % 1000000000) 1000000000 = Kq at hq q1 q2
  have hnsU : T % 1000000000 * F64.unit ≤ 1000000000 * F64.unit :=
    Nat.mul_le_mul_right _ (by omega)
  have hKq2 : Kq ≤ 2 * F64.unit := by omega
  -- the sum
  have hs1 : T / 1000000000 * F64.unit + Kq ≤ 9223372038 * F64.unit := by
    have : T / 1000000000 * F64.unit ≤ 9223372036 * F64.unit :=
      Nat.mul_le_mul_right _ (by omega)
    omega
  have hs := round_fin (T / 1000000000 * F64.unit + Kq) F64.unit 9223372038 unit_pos hs1
    (by norm_num)
  obtain ⟨s1, s2⟩ := roundMag_err_unit (T / 1000000000 * F64.unit + Kq)
  generalize hKs : F64.roundMag (T / 1000000000 * F64.unit + Kq) F64.unit = Ks at hs s1 s2
  have hTU : T * F64.unit =
      1000000000 * (T / 1000000000 * F64.unit) + T % 1000000000 * F64.unit := by
    have := Nat.div_add_mod T 1000000000
    calc T * F64.unit = (1000000000 * (T / 1000000000) + T % 1000000000) * F64.unit := by
          rw [this]
      _ = _ := by ring
  refine ⟨Ks, ?_, ?_, ?_⟩
  · unfold Seconds
    rw [h1, h2, ofInt_exact _ hsec, ofInt_exact _ hns, h4]
    have hdiv : F64.div (.fin ((T % 1000000000 * F64.unit : Nat) : Int))
        (.fin ((1000000000 * F64.unit : Nat) : Int)) = .fin (Kq : Int) := by
      simp only [F64.div, hb, if_false, natCast_not_neg, bne_self_eq_false, Int.natAbs_ofNat]
      exact hq
    rw [hdiv]
    have hcast : ((T / 1000000000 * F64.unit : Nat) : Int) + (Kq : Int) =
        ((T / 1000000000 * F64.unit + Kq : Nat) : Int) := by
      rw [Nat.cast_add]
    simp only [F64.add]
    rw [hcast, natCast_not_neg, Int.natAbs_ofNat]
    exact hs
  · omega
  · omega


/-! ## Lemmas: the text of two decimals and its decoding -/

theorem fmtFixed2_cents (k : Nat) : fmtFixed2 (.fin (k : Int)) = centsText (hundredths k) :=
  fmtFixed2_nat k

theorem scanMant_two (v d1 d2 : Nat) (h1 : d1 ≤ 9) (h2 : d2 ≤ 9) :
    scanMant 10 [46, 48 + d1, 48 + d2]
        { mant := v, frac := 0, sawdot := false, sawdigits := true, underscores := false,
          rest := [] } =
      { mant := (v * 10 + d1) * 10 + d2, frac := 2, sawdot := true, sawdigits := true,
        underscores := false, rest := [] } := by
  have a1 : ¬ (48 + d1 = 95) := by omega
  have a2 : ¬ (48 + d1 = 46) := by omega
  have a3 : 48 + d1 ≤ 57 := by omega
  have b1 : ¬ (48 + d2 = 95) := by omega
  have b2 : ¬ (48 + d2 = 46) := by omega
  have b3 : 48 + d2 ≤ 57 := by omega
  simp [scanMant, a1, a2, a3, b1, b2, b3]

/-- The text of `h` hundredths is read as the mantissa `h` with exponent `-2`. -/
theorem readFloat_cents (h : Nat) :
    readFloat (centsText h) = some { neg := false, hex := false, mant := h, exp := -2 } := by
  unfold centsText
  cases hf : fmtNat (h / 100) with
  | nil => exact absurd hf (fmtNat_ne_nil _)
  | cons c r =>
    have hc : 48 ≤ c ∧ c ≤ 57 := fmtNat_digit (h / 100) c (by simp [hf])
    have hv : digitsVal r (0 * 10 + (c - 48)) = some (h / 100) := by
      have := digitsVal_fmtNat (h / 100)
      rw [hf] at this
      simpa [digitsVal, hc] using this
    have h1 : ¬ c = 45 := by omega
    have h2 : ¬ (c = 43 ∨ c = 45) := by omega
    have h3 : ¬ c = 95 := by omega
    have h4 : ¬ c = 46 := by omega
    have hm : (h / 100 * 10 + h % 100 / 10) * 10 + h % 10 = h := by omega
    have hscan : scanMant 10 (c :: (r ++ [46, 48 + h % 100 / 10, 48 + h % 10]))
        { mant := 0, frac := 0, sawdot := false, sawdigits := false, underscores := false,
          rest := [] } =
        { mant := h, frac := 2, sawdot := true, sawdigits := true, underscores := false,
          rest := [] } := by
      simp only [scanMant, h3, h4, hc, and_self, if_true, if_false, Bool.false_eq_true]
      rw [scanMant_digits r _ (h / 100) hv, scanMant_two _ _ _ (by omega) (by omega), hm]
    have hhex : hexPrefix (c :: (r ++ [46, 48 + h % 100 / 10, 48 + h % 10])) = false := by
      cases r with
      | nil => simp [hexPrefix, lower]
      | cons c1 r1 =>
        have hc1 : 48 ≤ c1 ∧ c1 ≤ 57 := fmtNat_digit (h / 100) c1 (by simp [hf])
        cases r1 <;> simp [hexPrefix, lower_digit c1 hc1] <;> omega
    simp only [List.cons_append, readFloat, h2, if_false, hhex]
    simp only [readNumber, Bool.false_eq_true, if_false, hscan]
    simp [h1]

/-- `ParseFloat` reads the text of `h` hundredths as the `float64` nearest to `h / 100`. -/
theorem ParseFloat_cents (h : Nat) (hh : h ≤ 922337203685) :
    ParseFloat (centsText h) = some (.fin ((F64.roundMag h 100 : Nat) : Int)) := by
  have hsp : special (centsText h) = none := by
    unfold centsText
    cases hf : fmtNat (h / 100) with
    | nil => exact absurd hf (fmtNat_ne_nil _)
    | cons c r => exact special_digit c _ (fmtNat_digit (h / 100) c (by simp [hf]))
  have hr := round_fin h 100 922337203685 (by norm_num) (by omega) (by norm_num)
  have h100 : (10 : Nat) ^ 2 = 100 := by norm_num
  unfold ParseFloat
  rw [hsp, readFloat_cents]
  simp only [Bool.false_eq_true, if_false]
  have hneg : ¬ ((0 : Int) ≤ -2) := by omega
  rw [if_neg hneg]
  have he : (-(-2 : Int)).toNat = 2 := by decide
  rw [he, h100, hr]

theorem unit_cancel (a b : Nat) (h : a * F64.unit ≤ b * F64.unit) : a ≤ b :=
  Nat.le_of_mul_le_mul_right h unit_pos

theorem wrap64_ms (ms : Nat) (h : ms ≤ 9223372036854) :
    wrap64 ((ms : Int) * Millisecond) = (ms : Int) * 1000000 := by
  have e : (ms : Int) * Millisecond = (ms : Int) * 1000000 := rfl
  rw [e, wrap64_of_range] <;> omega

/-- The `Time` decoded from the `float64` nearest to `h / 100`: the product with 1000 is
truncated to `10 * h` ms or to one millisecond less, and it fits a `Duration`. -/
theorem decode_cents (h : Nat) (hh : h ≤ 922337203685) :
    ∃ ms : Nat,
      wrap64 ((F64.mul (.fin ((F64.roundMag h 100 : Nat) : Int)) (F64.ofInt 1000)).toInt64 *
          Millisecond) = (ms : Int) * 1000000 ∧
      ms ≤ 10 * h ∧ 10 * h ≤ ms + 1 := by
  have hU := unit_ge
  obtain ⟨x1, x2⟩ := roundMag_err h 100 (by norm_num)
  have hhU : h * F64.unit ≤ 922337203685 * F64.unit := Nat.mul_le_mul_right _ hh
  generalize hKx : F64.roundMag h 100 = Kx at x1 x2
  have hKx1 : Kx * 1000 ≤ 10000000000000 * F64.unit := by omega
  have hnum : Kx * 1000 * F64.unit ≤ 10000000000000 * (F64.unit * F64.unit) := by
    rw [← Nat.mul_assoc]
    exact Nat.mul_le_mul_right _ hKx1
  have hm := round_fin (Kx * 1000 * F64.unit) (F64.unit * F64.unit) 10000000000000
    (Nat.mul_pos unit_pos unit_pos) hnum (by norm_num)
  rw [roundMag_scale _ _ _ unit_pos] at hm
  obtain ⟨m1, m2⟩ := roundMag_err_unit (Kx * 1000)
  generalize hKm : F64.roundMag (Kx * 1000) F64.unit = Km at hm m1 m2
  have b1 : 10 * (h * F64.unit) ≤ Km + F64.unit := by omega
  have b2 : Km < 10 * (h * F64.unit) + F64.unit := by omega
  have c1 : Km / F64.unit ≤ 10 * h := by
    have : Km / F64.unit < 10 * h + 1 := by
      rw [Nat.div_lt_iff_lt_mul unit_pos]
      calc Km < 10 * (h * F64.unit) + F64.unit := b2
        _ = (10 * h + 1) * F64.unit := by ring
    omega
  have c2 : 10 * h ≤ Km / F64.unit + 1 := by
    have h1 : 10 * h ≤ (Km + F64.unit) / F64.unit := by
      rw [Nat.le_div_iff_mul_le unit_pos]
      calc 10 * h * F64.unit = 10 * (h * F64.unit) := Nat.mul_assoc _ _ _
        _ ≤ Km + F64.unit := b1
    rwa [Nat.add_div_right _ unit_pos] at h1
  have h1000 : F64.ofInt 1000 = .fin ((1000 * F64.unit : Nat) : Int) :=
    ofInt_exact 1000 (by norm_num)
  have hmul : F64.mul (.fin (Kx : Int)) (F64.ofInt 1000) = .fin (Km : Int) := by
    rw [h1000]
    simp only [F64.mul, natCast_not_neg, Int.natAbs_ofNat, bne_self_eq_false]
    rw [← Nat.mul_assoc]
    exact hm
  have htr : (F64.fin (Km : Int)).trunc = some ((Km / F64.unit : Nat) : Int) := by
    simp only [F64.trunc]
    rw [← Int.ofNat_tdiv]
  generalize Km / F64.unit = ms at c1 c2 htr
  have hms : ms ≤ 9223372036854 := by
    clear x1 x2 m1 m2 b1 b2 hnum hKx1 hhU hU htr hmul hm
    omega
  have hi : (F64.fin (Km : Int)).toInt64 = (ms : Int) :=
    toInt64_of_trunc _ _ htr (by clear x1 x2 m1 m2 b1 b2 hnum hKx1 hhU hU; omega)
      (by clear x1 x2 m1 m2 b1 b2 hnum hKx1 hhU hU; omega)
  have hw := wrap64_ms ms hms
  exact ⟨ms, by rw [hmul, hi, hw], c1, c2⟩


/-! ## Lemmas: the text of an event, in hundredths of a second -/

/-- The text of an event with a non-negative `Time`: the seconds field is the text of `h`
hundredths, and `h` hundredths are within 5.001025 ms of the `Time` (half a hundredth,
and at most 1025 ns for the rounding of `Duration.Seconds`). -/
theorem MarshalText_cents (e : Event) (hT0 : 0 ≤ e.Time) (hT : e.Time ≤ 9223372036854775807) :
    ∃ h : Nat, e.MarshalText = (centsText h ++ [58] ++ fmtInt e.Value, none) ∧
      10000000 * (h : Int) ≤ e.Time + 5001025 ∧ e.Time ≤ 10000000 * (h : Int) + 5001025 := by
  obtain ⟨T, hTe⟩ := Int.eq_ofNat_of_zero_le hT0
  have hT1 : T ≤ 9223372036854775807 := by omega
  obtain ⟨K, hK, k1, k2⟩ := Seconds_err T hT1
  obtain ⟨r1, r2⟩ := hundredths_err K
  obtain ⟨h, hh⟩ : ∃ h, h = hundredths K := ⟨_, rfl⟩
  rw [← hh] at r1 r2
  have hU := unit_pos
  have a1 : 10000000 * h ≤ T + 5001025 := by
    apply unit_cancel
    have e1 : 10000000 * h * F64.unit = 10000000 * (h * F64.unit) := Nat.mul_assoc _ _ _
    have e2 : (T + 5001025) * F64.unit = T * F64.unit + 5001025 * F64.unit :=
      Nat.add_mul _ _ _
    rw [e1, e2]
    omega
  have a2 : T ≤ 10000000 * h + 5001025 := by
    apply unit_cancel
    have e1 : 10000000 * h * F64.unit = 10000000 * (h * F64.unit) := Nat.mul_assoc _ _ _
    have e2 : (10000000 * h + 5001025) * F64.unit =
        10000000 * h * F64.unit + 5001025 * F64.unit := Nat.add_mul _ _ _
    rw [e2, e1]
    omega
  clear r1 r2 k1 k2
  refine ⟨h, ?_, ?_, ?_⟩
  · simp only [Event.MarshalText, Sprintf, hTe, hK, fmtFixed2_cents, hh]
  · rw [hTe]; omega
  · rw [hTe]; omega

/-- The text of `h` hundredths and a `Value` in `[0,4]` decodes to that `Value` and a
`Time` of `10 * h` ms or one millisecond less. -/
theorem UnmarshalText_cents (e0 : Event) (h : Nat) (v : Int) (hh : h ≤ 922337203685)
    (h0 : 0 ≤ v) (h4 : v ≤ 4) :
    ∃ ms : Nat,
      Event.UnmarshalText e0 (centsText h ++ [58] ++ fmtInt v) =
        ({ Time := (ms : Int) * 1000000, Value := v }, none) ∧
      ms ≤ 10 * h ∧ 10 * h ≤ ms + 1 := by
  obtain ⟨ms, hms, c1, c2⟩ := decode_cents h hh
  refine ⟨ms, ?_, c1, c2⟩
  rw [Event.UnmarshalText_ok_iff]
  refine ⟨centsText h, fmtInt v, _, v, ?_, ParseFloat_cents h hh,
    ParseInt_fmtInt_small _ h0 h4, h0, h4, ?_⟩
  · have h1 : 58 ∉ centsText h := by
      intro hm
      simp only [centsText, List.mem_append, List.mem_cons, List.mem_singleton,
        List.not_mem_nil, or_false] at hm
      rcases hm with hm | hm
      · have := fmtNat_digit _ _ hm
        omega
      · omega
    have h2 : 58 ∉ fmtInt v := fun hm => (fmtInt_clean _ 58 hm).1 rfl
    have h3 : centsText h ++ [58] ++ fmtInt v = centsText h ++ 58 :: fmtInt v := by simp
    rw [h3, Split_append, Split_of_not_mem _ _ h1, Split_of_not_mem _ _ h2]
    rfl
  · rw [hms]


theorem fmtInt_small (v : Int) (h0 : 0 ≤ v) (h4 : v ≤ 4) : fmtInt v = [48 + v.toNat] := by
  have hv : v = 0 ∨ v = 1 ∨ v = 2 ∨ v = 3 ∨ v = 4 := by omega
  rcases hv with rfl | rfl | rfl | rfl | rfl <;> decide

/-- Decoding the text of an event and encoding the result gives the text back. -/
theorem Event_text_roundtrip (e e0 : Event) (h0 : 0 ≤ e.Value) (h4 : e.Value ≤ 4)
    (hT0 : 0 ≤ e.Time) (hT : e.Time ≤ 9223372036854775807) :
    ∃ e1, Event.UnmarshalText e0 e.MarshalText.1 = (e1, none) ∧
      e1.MarshalText = e.MarshalText := by
  obtain ⟨h, hm, a1, a2⟩ := MarshalText_cents e hT0 hT
  have hh : h ≤ 922337203685 := by omega
  obtain ⟨ms, hu, c1, c2⟩ := UnmarshalText_cents e0 h e.Value hh h0 h4
  obtain ⟨h1, hm1, b1, b2⟩ := MarshalText_cents { Time := (ms : Int) * 1000000, Value := e.Value }
    (by simp only; omega) (by simp only; omega)
  simp only at b1 b2 hm1
  have heq : h1 = h := by omega
  refine ⟨_, by rw [hm]; exact hu, ?_⟩
  rw [hm1, hm, heq]

/-- A non-empty collection whose events' texts all decode is decoded from its own text to
the events decoded from those texts, in order. -/
theorem Events_decode_text (es recv : Events) (hne : es ≠ [])
    (h : ∀ e ∈ es, (Event.UnmarshalText Event.zero e.MarshalText.1).2 = none) :
    Events.UnmarshalText recv (Events.MarshalText es).1 =
      .returned (es.map fun e => decoded e.MarshalText.1) none := by
  have hsplit : Split (Join (es.map fun e => e.MarshalText.1) [44]) 44 =
      es.map fun e => e.MarshalText.1 := by
    apply Split_Join
    · simpa using hne
    · intro x hx
      obtain ⟨e, _, rfl⟩ := List.mem_map.mp hx
      exact Sprintf_no_comma _ _
  rw [Events.MarshalText_eq]
  rw [Events.UnmarshalText_done recv _ 123 125 _ (TrimSpace_braces _)]
  · rw [hsplit]
    simp [List.map_map, Function.comp_def]
  · rw [hsplit]
    intro tok htok
    obtain ⟨e, he, rfl⟩ := List.mem_map.mp htok
    exact h e he


/-! ## Claims on the text of events -/

/-- C12: for every Event with `Value` in `[0,4]` and a non-negative `Time` (a `Duration`,
so at most `2^63 - 1` ns), `Event.MarshalText` returns no error and the text
`<seconds>:<value>`: the seconds are a decimal whole part, a point and exactly two digits,
the number of hundredths `h` they write being the `Time` in seconds to two decimals (within
5.001025 ms of the `Time`: half a hundredth, and at most 1025 ns for the rounding of
`Duration.Seconds`), and the value is the single decimal digit of `Value`. The event
`{1000ms, 2}` encodes to `1.00:2`. -/
theorem C12_event_encode_format :
    (∀ e : Event, 0 ≤ e.Value → e.Value ≤ 4 → 0 ≤ e.Time → e.Time ≤ 9223372036854775807 →
      ∃ h : Nat,
        e.MarshalText =
          (fmtNat (h / 100) ++ [46, 48 + h % 100 / 10, 48 + h % 10] ++
            [58, 48 + e.Value.toNat], none) ∧
        h % 100 / 10 ≤ 9 ∧ h % 10 ≤ 9 ∧
        digitsVal (fmtNat (h / 100)) 0 = some (h / 100) ∧
        10000000 * (h : Int) ≤ e.Time + 5001025 ∧
        e.Time ≤ 10000000 * (h : Int) + 5001025) ∧
    Event.MarshalText { Time := 1000 * Millisecond, Value := 2 } = (bytes "1.00:2", none) := by
  refine ⟨fun e h0 h4 hT0 hT => ?_, by decide!⟩
  obtain ⟨h, hm, a1, a2⟩ := MarshalText_cents e hT0 hT
  refine ⟨h, ?_, by omega, by omega, digitsVal_fmtNat _, a1, a2⟩
  rw [hm, fmtInt_small _ h0 h4]
  simp [centsText]

/-- Witness of C12, at the event `{1234567891 ns, 3}`: its text is `1.23:3`. -/
theorem C12_event_encode_format_witness :
    ∃ h : Nat,
      Event.MarshalText { Time := 1234567891, Value := 3 } =
        (fmtNat (h / 100) ++ [46, 48 + h % 100 / 10, 48 + h % 10] ++ [58, 48 + 3], none) ∧
      10000000 * (h : Int) ≤ 1234567891 + 5001025 ∧
      (1234567891 : Int) ≤ 10000000 * (h : Int) + 5001025 := by
  obtain ⟨h, h1, _, _, _, h2, h3⟩ := C12_event_encode_format.1
    { Time := 1234567891, Value := 3 } (by decide) (by decide) (by decide) (by decide)
  exact ⟨h, h1, h2, h3⟩

/-- C18 counterexample: the event `{2010ms, 3}`, whose `Time` is a whole multiple of 10 ms,
is encoded as `2.01:3`, and that text decodes to `{2009ms, 3}`: the `float64` nearest to
2.01 times 1000 is below 2010 and is truncated. -/
theorem C18_counterexample :
    Event.MarshalText { Time := 2010 * Millisecond, Value := 3 } = (bytes "2.01:3", none) ∧
    Event.UnmarshalText Event.zero (bytes "2.01:3") =
      ({ Time := 2009 * Millisecond, Value := 3 }, none) := by
  decide!

/-- C18 (amended): for every Event with `Value` in `[0,4]` and `Time` a non-negative whole
multiple `n` of 10 ms (a `Duration`, so at most `2^63 - 1` ns), `Event.UnmarshalText` of the
text of `Event.MarshalText` succeeds, with the same `Value` and a `Time` that is the `Time`
of the event or one millisecond less; it equals the event when `n` is at most 200 (up to
2000 ms) or a multiple of 100 (whole seconds). -/
theorem C18_grid_round_trip (e e0 : Event) (n : Nat)
    (hn : e.Time = (n : Int) * 10 * Millisecond) (hT : e.Time ≤ 9223372036854775807)
    (h0 : 0 ≤ e.Value) (h4 : e.Value ≤ 4) :
    ∃ e1, Event.UnmarshalText e0 e.MarshalText.1 = (e1, none) ∧ e1.Value = e.Value ∧
      (e1.Time = e.Time ∨ e1.Time = e.Time - Millisecond) ∧
      (n ≤ 200 ∨ n % 100 = 0 → e1 = e) := by
  have hT0 : 0 ≤ e.Time := by rw [hn]; simp only [Millisecond]; omega
  have hn1 : e.Time = (n : Int) * 10000000 := by rw [hn]; simp only [Millisecond]; omega
  obtain ⟨h, hm, a1, a2⟩ := MarshalText_cents e hT0 hT
  have hh : h = n := by omega
  subst hh
  obtain ⟨ms, hu, c1, c2⟩ := UnmarshalText_cents e0 h e.Value (by omega) h0 h4
  refine ⟨{ Time := (ms : Int) * 1000000, Value := e.Value }, by rw [hm]; exact hu, rfl,
    ?_, ?_⟩
  · simp only [Millisecond]
    omega
  · intro hcase
    have hrt : timeRoundTrips e.Time = true := by
      rcases hcase with hc | hc
      · rw [hn]
        exact timeRoundTrips_grid h (by omega)
      · have e2 : e.Time = ((h / 100 : Nat) : Int) * 1000 * Millisecond := by
          rw [hn1]; simp only [Millisecond]; omega
        rw [e2]
        exact timeRoundTrips_whole _ (by omega)
    have h2 := Event_roundtrip e e0 h0 h4 hrt
    rw [hm] at h2
    rw [hu] at h2
    exact (Prod.mk.inj h2).1

/-- Witness of C18 (amended), at the event `{2010ms, 3}` (`n = 201`): the decoded `Time` is
2010 ms or 2009 ms. -/
theorem C18_grid_round_trip_witness :
    ∃ e1, Event.UnmarshalText Event.zero
        (Event.MarshalText { Time := 2010 * Millisecond, Value := 3 }).1 = (e1, none) ∧
      e1.Value = 3 ∧
      (e1.Time = 2010 * Millisecond ∨ e1.Time = 2010 * Millisecond - Millisecond) := by
  obtain ⟨e1, h1, h2, h3, _⟩ := C18_grid_round_trip
    { Time := 2010 * Millisecond, Value := 3 } Event.zero 201 (by decide) (by decide)
    (by decide) (by decide)
  exact ⟨e1, h1, h2, h3⟩

/-- C15: for every Event with `Value` in `[0,4]` and a non-negative `Time` (a `Duration`,
so at most `2^63 - 1` ns), decoding the text of `Event.MarshalText` succeeds and encoding
the decoded event gives back exactly that text; likewise for every non-empty collection of
such events, `Events.UnmarshalText` of the text of `Events.MarshalText` succeeds and
`Events.MarshalText` of the decoded collection gives back exactly that text. -/
theorem C15_text_round_trip :
    (∀ e e0 : Event, 0 ≤ e.Value → e.Value ≤ 4 → 0 ≤ e.Time →
      e.Time ≤ 9223372036854775807 →
      ∃ e1, Event.UnmarshalText e0 e.MarshalText.1 = (e1, none) ∧
        e1.MarshalText = e.MarshalText) ∧
    (∀ es recv : Events, es ≠ [] →
      (∀ e ∈ es, 0 ≤ e.Value ∧ e.Value ≤ 4 ∧ 0 ≤ e.Time ∧ e.Time ≤ 9223372036854775807) →
      ∃ es1, Events.UnmarshalText recv (Events.MarshalText es).1 = .returned es1 none ∧
        Events.MarshalText es1 = Events.MarshalText es) := by
  refine ⟨fun e e0 h0 h4 hT0 hT => Event_text_roundtrip e e0 h0 h4 hT0 hT, ?_⟩
  intro es recv hne hall
  have hdec : ∀ e ∈ es, (Event.UnmarshalText Event.zero e.MarshalText.1).2 = none ∧
      (decoded e.MarshalText.1).MarshalText.1 = e.MarshalText.1 := by
    intro e he
    obtain ⟨h0, h4, hT0, hT⟩ := hall e he
    obtain ⟨e1, h1, h2⟩ := Event_text_roundtrip e Event.zero h0 h4 hT0 hT
    refine ⟨by rw [h1], ?_⟩
    simp only [decoded, h1, h2]
  refine ⟨_, Events_decode_text es recv hne (fun e he => (hdec e he).1), ?_⟩
  have hmap : List.map ((fun e => e.MarshalText.1) ∘ fun e => decoded e.MarshalText.1) es =
      List.map (fun e => e.MarshalText.1) es := by
    apply List.map_congr_left
    intro e he
    exact (hdec e he).2
  rw [Events.MarshalText_eq, Events.MarshalText_eq, List.map_map, hmap]

/-- Witness of C15, at the event `{1234567891 ns, 3}` and at the collection of the events
`{2010ms, 3}` and `{1ms, 0}`. -/
theorem C15_text_round_trip_witness :
    (∃ e1, Event.UnmarshalText Event.zero
        (Event.MarshalText { Time := 1234567891, Value := 3 }).1 = (e1, none) ∧
      e1.MarshalText = Event.MarshalText { Time := 1234567891, Value := 3 }) ∧
    (∃ es1, Events.UnmarshalText []
        (Events.MarshalText [{ Time := 2010 * Millisecond, Value := 3 },
          { Time := 1 * Millisecond, Value := 0 }]).1 = .returned es1 none ∧
      Events.MarshalText es1 =
        Events.MarshalText [{ Time := 2010 * Millisecond, Value := 3 },
          { Time := 1 * Millisecond, Value := 0 }]) := by
  obtain ⟨e1, h1, h2⟩ := C15_text_round_trip.1 { Time := 1234567891, Value := 3 } Event.zero
    (by decide) (by decide) (by decide) (by decide)
  have hall : ∀ e ∈ [({ Time := 2010 * Millisecond, Value := 3 } : Event),
      { Time := 1 * Millisecond, Value := 0 }],
      0 ≤ e.Value ∧ e.Value ≤ 4 ∧ 0 ≤ e.Time ∧ e.Time ≤ 9223372036854775807 := by
    intro e he
    simp only [List.mem_cons, List.mem_singleton, List.not_mem_nil, or_false] at he
    rcases he with rfl | rfl <;> decide
  obtain ⟨es1, h3, h4⟩ := C15_text_round_trip.2 [{ Time := 2010 * Millisecond, Value := 3 },
    { Time := 1 * Millisecond, Value := 0 }] [] (by simp) hall
  exact ⟨⟨e1, h1, h2⟩, ⟨es1, h3, h4⟩⟩

end kiiroo
